import Mathlib

/-!
# A shallow embedding of the mini-lsm read-path primitives

This file embeds, as executable Lean definitions, the sorted block format
(`Block.encode` / `Block.decode`), the block iterator, the SST builder and
iterator, and the k-way merge iterator of the mini-lsm-starter crate, and
proves correctness theorems about them.

Machine integers are modelled as `Nat` with explicit truncation (`% 256`,
`% 65536`, `% 4294967296`) exactly where the code narrows; `Vec<u8>` /
`Vec<u16>` become `List Nat` whose element bounds appear as hypotheses where
a theorem needs them.  Code that can panic or return `Err` is modelled with
`Option` / a result flag.

Components of the crate that are referenced but whose sources are not part
of this excerpt (the block builder, `SsTable::find_block_idx`,
`SsTable::read_block_cached`, `BlockMeta::encode_block_meta`, the file
object) are modelled from the specification; each such definition carries a
doc comment starting with `Modelled from the spec:`.
-/

/-- Keys are byte strings. -/
abbrev Key := List Nat

/-- Values are byte strings. -/
abbrev Val := List Nat

/-- Lexicographic strict order on byte strings, as Rust compares `&[u8]`
slices (shorter strict prefixes compare less). -/
def keyLt : List Nat → List Nat → Bool
  | [], [] => false
  | [], _ :: _ => true
  | _ :: _, [] => false
  | a :: as, b :: bs => if a < b then true else if b < a then false else keyLt as bs

/-- Big-endian byte pair of a 16-bit value (`put_u16`, including the `as u16`
narrowing performed before the call where the source narrows). -/
def u16be (n : Nat) : List Nat := [n / 256 % 256, n % 256]

/-- Big-endian bytes of a 32-bit value (`put_u32`). -/
def u32be (n : Nat) : List Nat :=
  [n / 16777216 % 256, n / 65536 % 256, n / 256 % 256, n % 256]

/-- Read a big-endian u16 at byte position `i` (`get_u16` after advancing to
position `i`); out-of-range positions read as 0. -/
def readU16 (bs : List Nat) (i : Nat) : Nat := bs.getD i 0 * 256 + bs.getD (i + 1) 0

/-! ## Block (src/block.rs) -/

/-- `Block`: entry bytes plus the per-entry offset index. -/
structure Block where
  data : List Nat
  offsets : List Nat
deriving DecidableEq, Repr

/-- `Block::encode`: entry data, then each offset as big-endian u16, then the
entry count narrowed `as u16`. -/
def Block.encode (b : Block) : List Nat :=
  b.data ++ (b.offsets.map u16be).flatten ++ u16be (b.offsets.length % 65536)

/-- The u16 reads performed by `Block::decode`'s offset loop: `n` values
starting at byte position `ptr`. -/
def readOffsets (bs : List Nat) (ptr n : Nat) : List Nat :=
  (List.range n).map fun j => readU16 bs (ptr + 2 * j)

/-- `Block::decode`.  The source indexes with unchecked `usize` arithmetic:
fewer than 2 input bytes, or a trailer count `n` with `2 * n` exceeding the
space before the trailer, make the index computations underflow and the
slicing panic; those panics are modelled as `none`.  No other validation is
performed: in particular offsets are never checked against the data
boundary. -/
def Block.decode (bytes : List Nat) : Option Block :=
  if bytes.length < 2 then none
  else
    let num_elements_ptr := bytes.length - 2
    let num_elements := readU16 bytes num_elements_ptr
    if num_elements_ptr < num_elements * 2 then none
    else
      let offsets_ptr := num_elements_ptr - num_elements * 2
      some ⟨bytes.take offsets_ptr, readOffsets bytes offsets_ptr num_elements⟩

/-! ## Block iterator (src/block/iterator.rs) -/

/-- `BlockIterator`: cursor state over a block.  An empty `key` means the
iterator is invalid. -/
structure BlockIterator where
  block : Block
  key : Key
  value_range : Nat × Nat
  idx : Nat
  first_key : Key
deriving DecidableEq, Repr

/-- `BlockIterator::new`. -/
def BlockIterator.new (b : Block) : BlockIterator :=
  ⟨b, [], (0, 0), 0, []⟩

/-- `BlockIterator::seek_to_index_util`: parse the entry that starts at
`block.offsets[index]`, returning the key bytes and the value range. -/
def BlockIterator.seek_to_index_util (b : Block) (index : Nat) : List Nat × (Nat × Nat) :=
  let offset := b.offsets.getD index 0
  let key_len := readU16 b.data offset
  let key_content := (b.data.drop (offset + 2)).take key_len
  let value_len := readU16 b.data (offset + 2 + key_len)
  let value_start := offset + 2 + key_len + 2
  (key_content, (value_start, value_start + value_len))

/-- `BlockIterator::seek_to_index`: past the end clears the key (and nothing
else); otherwise loads key, value range and index of entry `index`. -/
def BlockIterator.seek_to_index (it : BlockIterator) (index : Nat) : BlockIterator :=
  if index ≥ it.block.offsets.length then
    { it with key := [] }
  else
    let p := BlockIterator.seek_to_index_util it.block index
    { it with key := p.1, value_range := p.2, idx := index }

/-- `BlockIterator::seek_to_first`. -/
def BlockIterator.seek_to_first (it : BlockIterator) : BlockIterator :=
  it.seek_to_index 0

/-- `BlockIterator::create_and_seek_to_first`. -/
def BlockIterator.create_and_seek_to_first (b : Block) : BlockIterator :=
  (BlockIterator.new b).seek_to_first

/-- `BlockIterator::value`: the slice `block.data[value_range.0 .. value_range.1]`. -/
def BlockIterator.value (it : BlockIterator) : Val :=
  (it.block.data.take it.value_range.2).drop it.value_range.1

/-- `BlockIterator::is_valid`: the owned key buffer is non-empty. -/
def BlockIterator.is_valid (it : BlockIterator) : Bool :=
  !it.key.isEmpty

/-- `BlockIterator::next`. -/
def BlockIterator.next (it : BlockIterator) : BlockIterator :=
  it.seek_to_index (it.idx + 1)

/-- `BlockIterator::seek_to_key`: partition the offset index by
`decoded key < target` and seek to the partition point. -/
def BlockIterator.seek_to_key (it : BlockIterator) (key : Key) : BlockIterator :=
  let index := it.block.offsets.findIdx fun offset =>
    let key_len := readU16 it.block.data offset
    let k := (it.block.data.drop (offset + 2)).take key_len
    !keyLt k key
  it.seek_to_index index

/-- `BlockIterator::create_and_seek_to_key`. -/
def BlockIterator.create_and_seek_to_key (b : Block) (key : Key) : BlockIterator :=
  (BlockIterator.new b).seek_to_key key

/-! ## Block builder (referenced by the SST builder; not in the source excerpt) -/

/-- Modelled from the spec: the block builder (§4.2), whose source is not in
the excerpt.  It accumulates entry bytes and offsets toward a soft
`block_size`. -/
structure BlockBuilder where
  offsets : List Nat
  data : List Nat
  block_size : Nat
deriving DecidableEq, Repr

/-- Modelled from the spec: a fresh block builder. -/
def BlockBuilder.new (block_size : Nat) : BlockBuilder :=
  ⟨[], [], block_size⟩

/-- The serialized record of one entry (§4.1): key length, key, value
length, value, lengths as big-endian u16. -/
def entryBytes (k : Key) (v : Val) : List Nat :=
  u16be k.length ++ k ++ u16be v.length ++ v

/-- Modelled from the spec: the current encoded size of the open block
(entry bytes, two offset bytes per entry, two trailer bytes). -/
def BlockBuilder.sizeEstimate (bb : BlockBuilder) : Nat :=
  bb.data.length + 2 * bb.offsets.length + 2

/-- Modelled from the spec: `BlockBuilder::add` accepts the first entry
unconditionally and otherwise rejects an entry whose addition would push the
encoded size past `block_size`; on acceptance it records the offset and
appends the entry record. -/
def BlockBuilder.add (bb : BlockBuilder) (k : Key) (v : Val) : Bool × BlockBuilder :=
  if bb.offsets.isEmpty || decide (bb.sizeEstimate + (k.length + v.length + 6) ≤ bb.block_size) then
    (true, { bb with offsets := bb.offsets ++ [bb.data.length],
                     data := bb.data ++ entryBytes k v })
  else (false, bb)

/-- Modelled from the spec: `BlockBuilder::is_empty`. -/
def BlockBuilder.is_empty (bb : BlockBuilder) : Bool :=
  bb.offsets.isEmpty

/-- Modelled from the spec: `BlockBuilder::build` produces the block. -/
def BlockBuilder.build (bb : BlockBuilder) : Block :=
  ⟨bb.data, bb.offsets⟩

/-! ## Block meta and SST (src/table/builder.rs; table.rs is not in the excerpt) -/

/-- `BlockMeta`: file offset plus first and last key of one block. -/
structure BlockMeta where
  offset : Nat
  first_key : Key
  last_key : Key
deriving DecidableEq, Repr

/-- Modelled from the spec: `BlockMeta::encode_block_meta` (§6) — for each
block a u32 offset, then the length-prefixed first and last keys,
concatenated without framing. -/
def encode_block_meta (ms : List BlockMeta) : List Nat :=
  (ms.map fun m =>
    u32be m.offset ++ u16be m.first_key.length ++ m.first_key ++
      u16be m.last_key.length ++ m.last_key).flatten

/-- `SsTable`: the file bytes (the file object holds the written contents),
the block meta sequence, the meta offset, the id, the overall first/last
keys and the reserved timestamp slot.  The block cache and bloom slots carry
no information in the core and are omitted. -/
structure SsTable where
  file : List Nat
  block_meta : List BlockMeta
  block_meta_offset : Nat
  id : Nat
  first_key : Key
  last_key : Key
  max_ts : Nat
deriving DecidableEq, Repr

/-- Modelled from the spec: `SsTable::find_block_idx` (§4.5) — the smallest
`i` with `meta[i].last_key ≥ key`, or `meta.len()` when there is none. -/
def SsTable.find_block_idx (t : SsTable) (key : Key) : Nat :=
  t.block_meta.findIdx fun m => !keyLt m.last_key key

/-- Modelled from the spec: `SsTable::read_block_cached` (§4.6) — read the
byte range `[meta[i].offset, meta[i+1].offset)` (the last block ends at the
meta offset) from the file and decode it; an out-of-range block index is an
out-of-range access of the meta sequence and fails. -/
def SsTable.read_block_cached (t : SsTable) (i : Nat) : Option Block :=
  if i < t.block_meta.length then
    let start := (t.block_meta.getD i ⟨0, [], []⟩).offset
    let stop :=
      if i + 1 < t.block_meta.length then (t.block_meta.getD (i + 1) ⟨0, [], []⟩).offset
      else t.block_meta_offset
    Block.decode ((t.file.take stop).drop start)
  else none

/-! ## SST builder (src/table/builder.rs) -/

/-- `SsTableBuilder`. -/
structure SsTableBuilder where
  builder : BlockBuilder
  first_key : Key
  last_key : Key
  data : List Nat
  meta : List BlockMeta
  block_size : Nat
deriving DecidableEq, Repr

/-- `SsTableBuilder::new`. -/
def SsTableBuilder.new (block_size : Nat) : SsTableBuilder :=
  ⟨BlockBuilder.new block_size, [], [], [], [], block_size⟩

/-- `SsTableBuilder::add`: try the open block builder; on acceptance update
`last_key` (and `first_key` when it was empty); on rejection seal the open
block (append its encoding to `data`, push its meta) and start a fresh block
with this entry. -/
def SsTableBuilder.add (b : SsTableBuilder) (key : Key) (value : Val) : SsTableBuilder :=
  match BlockBuilder.add b.builder key value with
  | (true, bb) =>
    { b with builder := bb, last_key := key,
             first_key := if b.first_key.isEmpty then key else b.first_key }
  | (false, _) =>
    let block := b.builder.build
    let encoded := block.encode
    let offset := b.data.length
    let m : BlockMeta := ⟨offset, b.first_key, b.last_key⟩
    let bb1 := (BlockBuilder.add (BlockBuilder.new b.block_size) key value).2
    { builder := bb1, first_key := key, last_key := key,
      data := b.data ++ encoded, meta := b.meta ++ [m], block_size := b.block_size }

/-- Fold `SsTableBuilder.add` over a list of entries. -/
def SsTableBuilder.addAll (b : SsTableBuilder) (es : List (Key × Val)) : SsTableBuilder :=
  es.foldl (fun acc e => acc.add e.1 e.2) b

/-- `SsTableBuilder::build`: seal the open block when non-empty, append the
encoded meta section and the u32 meta offset, create the file, and unwrap
the first/last meta entries — which panics (`none`) when no key was ever
added.  The file object is modelled as the written bytes (file creation is
the only I/O and is modelled as succeeding). -/
def SsTableBuilder.build (b : SsTableBuilder) (id : Nat) : Option SsTable :=
  let b2 :=
    if !b.builder.is_empty then
      { b with builder := BlockBuilder.new b.block_size,
               meta := b.meta ++ [⟨b.data.length, b.first_key, b.last_key⟩],
               data := b.data ++ b.builder.build.encode }
    else b
  let meta_offset := b2.data.length
  let fileData := b2.data ++ encode_block_meta b2.meta ++ u32be (meta_offset % 4294967296)
  match b2.meta with
  | [] => none
  | m0 :: rest =>
    some { file := fileData, block_meta := m0 :: rest, block_meta_offset := meta_offset,
           id := id, first_key := m0.first_key,
           last_key := ((m0 :: rest).getLastD ⟨0, [], []⟩).last_key, max_ts := 0 }

/-! ## SST iterator (src/table/iterator.rs) -/

/-- `SsTableIterator`. -/
structure SsTableIterator where
  table : SsTable
  blk_iter : BlockIterator
  blk_idx : Nat
deriving DecidableEq, Repr

/-- `SsTableIterator::create_and_seek_to_first`. -/
def SsTableIterator.create_and_seek_to_first (t : SsTable) : Option SsTableIterator :=
  match t.read_block_cached 0 with
  | none => none
  | some block => some ⟨t, BlockIterator.create_and_seek_to_first block, 0⟩

/-- `SsTableIterator::create_and_seek_to_key`.  Note that the block read at
`blk_idx` happens before the past-the-end check. -/
def SsTableIterator.create_and_seek_to_key (t : SsTable) (key : Key) : Option SsTableIterator :=
  let blk_idx := t.find_block_idx key
  match t.read_block_cached blk_idx with
  | none => none
  | some block =>
    let blk_iter := BlockIterator.create_and_seek_to_key block key
    if blk_idx ≥ t.block_meta.length then some ⟨t, blk_iter, blk_idx⟩
    else if !blk_iter.is_valid then
      let b2 := blk_idx + 1
      if b2 < t.block_meta.length then
        match t.read_block_cached b2 with
        | none => none
        | some nb => some ⟨t, BlockIterator.create_and_seek_to_first nb, b2⟩
      else some ⟨t, blk_iter, b2⟩
    else some ⟨t, blk_iter, blk_idx⟩

/-- `SsTableIterator::seek_to_key` (the method): set `blk_idx` from
`find_block_idx`; past the end return at once (leaving the old block
iterator in place); otherwise seek inside the chosen block, falling through
to the next block's first entry when the in-block seek goes invalid. -/
def SsTableIterator.seek_to_key (it : SsTableIterator) (key : Key) : Option SsTableIterator :=
  let blk_idx := it.table.find_block_idx key
  if blk_idx ≥ it.table.block_meta.length then some { it with blk_idx := blk_idx }
  else
    match it.table.read_block_cached blk_idx with
    | none => none
    | some block =>
      let bi := BlockIterator.create_and_seek_to_key block key
      if !bi.is_valid then
        let b2 := blk_idx + 1
        if b2 < it.table.block_meta.length then
          match it.table.read_block_cached b2 with
          | none => none
          | some nb =>
            some { it with blk_iter := BlockIterator.create_and_seek_to_first nb, blk_idx := b2 }
        else some { it with blk_iter := bi, blk_idx := b2 }
      else some { it with blk_iter := bi, blk_idx := blk_idx }

/-- `SsTableIterator::key`. -/
def SsTableIterator.key (it : SsTableIterator) : Key :=
  it.blk_iter.key

/-- `SsTableIterator::value`. -/
def SsTableIterator.value (it : SsTableIterator) : Val :=
  it.blk_iter.value

/-- `SsTableIterator::is_valid`. -/
def SsTableIterator.is_valid (it : SsTableIterator) : Bool :=
  it.blk_iter.is_valid && decide (it.blk_idx < it.table.block_meta.length)

/-- `SsTableIterator::next`: `Err` (`none`) on an invalid iterator; advance
the block iterator, rolling over to the next block's first entry, or past
the final block leaving the iterator invalid. -/
def SsTableIterator.next (it : SsTableIterator) : Option SsTableIterator :=
  if !it.is_valid then none
  else
    let bi := it.blk_iter.next
    if !bi.is_valid then
      let b2 := it.blk_idx + 1
      if b2 < it.table.block_meta.length then
        match it.table.read_block_cached b2 with
        | none => none
        | some blk => some { it with blk_iter := BlockIterator.create_and_seek_to_first blk, blk_idx := b2 }
      else some { it with blk_iter := bi, blk_idx := b2 }
    else some { it with blk_iter := bi }

/-- A full scan: emit `(key, value)` and advance while the iterator is
valid.  `fuel` bounds the number of steps; any fuel beyond the number of
stored entries is enough. -/
def sstScan : Nat → SsTableIterator → List (Key × Val)
  | 0, _ => []
  | fuel + 1, it =>
    if it.is_valid then
      (it.key, it.value) ::
        (match it.next with
         | some it2 => sstScan fuel it2
         | none => [])
    else []

/-! ## Merge iterator (src/iterators/merge_iterator.rs)

The merged sources are modelled as list-backed iterators: `entries` is what
remains to be emitted, and `poison` models an iterator whose `next()`
returns `Err`.  The binary heap is modelled as a list kept sorted by the
wrapper ordering (key ascending, then source index ascending), which is
observationally what `BinaryHeap` provides through `peek_mut`/`pop` for the
strict total order the merge iterator uses. -/

/-- A list-backed storage iterator. -/
structure MIter where
  entries : List (Key × Val)
  poison : Bool
deriving DecidableEq, Repr

/-- `StorageIterator::is_valid` for a list-backed iterator. -/
def MIter.isValid (it : MIter) : Bool :=
  !it.entries.isEmpty

/-- Current key (empty when exhausted). -/
def MIter.keyI (it : MIter) : Key :=
  match it.entries with
  | [] => []
  | e :: _ => e.1

/-- Current value (empty when exhausted). -/
def MIter.valI (it : MIter) : Val :=
  match it.entries with
  | [] => []
  | e :: _ => e.2

/-- `StorageIterator::next` for a list-backed iterator: fails when poisoned,
otherwise drops the current entry. -/
def MIter.nextI (it : MIter) : Except Unit MIter :=
  if it.poison then Except.error () else Except.ok ⟨it.entries.tail, it.poison⟩

/-- `HeapWrapper`: source priority and iterator. -/
structure HeapWrapper where
  idx : Nat
  iter : MIter
deriving DecidableEq, Repr

/-- The min-first ordering the heap pops by: Rust's `HeapWrapper::cmp`
compares key, then index, and reverses; popping the max-heap therefore
yields the least `(key, index)`. -/
def wLe (a b : HeapWrapper) : Bool :=
  keyLt a.iter.keyI b.iter.keyI ||
    (a.iter.keyI == b.iter.keyI && decide (a.idx ≤ b.idx))

/-- Insert into the sorted-list model of the heap. -/
def heapPush (w : HeapWrapper) : List HeapWrapper → List HeapWrapper
  | [] => [w]
  | x :: xs => if wLe w x then w :: x :: xs else x :: heapPush w xs

/-- Total remaining entries held by a heap. -/
def heapEntries (h : List HeapWrapper) : Nat :=
  (h.map fun w => w.iter.entries.length).sum

/-- `MergeIterator`. -/
structure MergeIterator where
  iters : List HeapWrapper
  current : Option HeapWrapper
deriving DecidableEq, Repr

/-- The construction loop of `MergeIterator::create`: skip invalid inputs
and push the rest; the priority counter `i` advances only when an iterator
is pushed. -/
def createGo (i : Nat) : List MIter → List HeapWrapper
  | [] => []
  | it :: rest =>
    if it.isValid then heapPush ⟨i, it⟩ (createGo (i + 1) rest)
    else createGo i rest

/-- `MergeIterator::create`: build the heap, then pop the least wrapper into
`current`. -/
def MergeIterator.create (its : List MIter) : MergeIterator :=
  match createGo 0 its with
  | [] => ⟨[], none⟩
  | w :: rest => ⟨rest, some w⟩

/-- The duplicate-skipping loop of `MergeIterator::next`: while the heap's
top has the current key, advance it; an advance error pops the top and
surfaces (first component `some ()`); an advance to invalid pops the top;
otherwise the heap rebalances with the advanced top. -/
def skipDup (ck : Key) (h : List HeapWrapper) : Option Unit × List HeapWrapper :=
  match h with
  | [] => (none, [])
  | w :: rest =>
    if w.iter.keyI = ck then
      match hn : w.iter.nextI with
      | Except.error _ => (some (), rest)
      | Except.ok it2 =>
        if h2 : it2.isValid then skipDup ck (heapPush ⟨w.idx, it2⟩ rest)
        else skipDup ck rest
    else (none, w :: rest)
termination_by 2 * heapEntries h + h.length
decreasing_by
  · have hpush : ∀ (y : HeapWrapper) (l : List HeapWrapper),
        heapEntries (heapPush y l) = y.iter.entries.length + heapEntries l ∧
          (heapPush y l).length = l.length + 1 := by
      intro y l
      induction l with
      | nil => simp [heapPush, heapEntries]
      | cons z zs ih =>
        by_cases hc : wLe y z = true
        · simp [heapPush, hc, heapEntries]
        · simp only [heapPush, hc, Bool.false_eq_true, if_false]
          simp only [heapEntries, List.map_cons, List.sum_cons, List.length_cons] at ih ⊢
          omega
    have h1 := hpush ⟨x.idx, it2⟩ xs
    have h2l : it2.entries.length + 1 = x.iter.entries.length := by
      simp only [MIter.nextI] at hn
      by_cases hp : x.iter.poison = true
      · simp [hp] at hn
      · simp only [hp, Bool.false_eq_true, if_false, Except.ok.injEq] at hn
        have he : it2.entries = x.iter.entries.tail := by rw [← hn]
        have hne : it2.entries ≠ [] := by
          intro hcon
          simp [MIter.isValid, hcon] at h2
        rw [he] at hne ⊢
        cases hw : x.iter.entries with
        | nil => simp [hw] at hne
        | cons e es => simp [hw]
    simp only [heapEntries, List.map_cons, List.sum_cons, List.length_cons] at h1 ⊢
    omega
  · simp only [heapEntries, List.map_cons, List.sum_cons, List.length_cons]
    omega

/-- `MergeIterator::next`: fail on an invalid merge iterator; run the
duplicate-skipping loop (an error there clears `current` and surfaces);
advance `current` (an error there surfaces); push it back when still valid
and pop the new least wrapper.  The first component is `some ()` when the
call returns `Err`. -/
def MergeIterator.nextM (m : MergeIterator) : Option Unit × MergeIterator :=
  match m.current with
  | none => (some (), m)
  | some cur =>
    if !cur.iter.isValid then (some (), m)
    else
      match skipDup cur.iter.keyI m.iters with
      | (some e, h2) => (some e, ⟨h2, none⟩)
      | (none, h2) =>
        match cur.iter.nextI with
        | Except.error _ => (some (), ⟨h2, some cur⟩)
        | Except.ok it2 =>
          let h3 := if it2.isValid then heapPush ⟨cur.idx, it2⟩ h2 else h2
          match h3 with
          | [] => (none, ⟨[], none⟩)
          | w :: rest => (none, ⟨rest, some w⟩)

/-- `MergeIterator::key`. -/
def MergeIterator.keyM (m : MergeIterator) : Key :=
  match m.current with
  | some w => w.iter.keyI
  | none => []

/-- `MergeIterator::value`. -/
def MergeIterator.valueM (m : MergeIterator) : Val :=
  match m.current with
  | some w => w.iter.valI
  | none => []

/-- `MergeIterator::is_valid`. -/
def MergeIterator.isValidM (m : MergeIterator) : Bool :=
  match m.current with
  | some w => w.iter.isValid
  | none => false

/-- A full scan of the merge iterator: emit `(key, value)` and advance while
valid; stop on error.  Any fuel beyond the total entry count is enough. -/
def mergeScan : Nat → MergeIterator → List (Key × Val)
  | 0, _ => []
  | fuel + 1, m =>
    if m.isValidM then
      (m.keyM, m.valueM) ::
        (match m.nextM with
         | (none, m2) => mergeScan fuel m2
         | (some _, _) => [])
    else []

/-! ## Proof-side specification definitions -/

/-- The wrappers held by a merge iterator: `current` (when present) together
with the heap. -/
def allWrappers (m : MergeIterator) : List HeapWrapper :=
  (match m.current with
   | some c => [c]
   | none => []) ++ m.iters

/-- Encoded footprint of one entry inside a block (record bytes plus its
offset slot). -/
def esize (e : Key × Val) : Nat := e.1.length + e.2.length + 6

/-- Encoded size of a block holding the entries `c` (records, offset slots,
trailer). -/
def chunkSize (c : List (Key × Val)) : Nat := (c.map esize).sum + 2

/-- Greedy partition of an entry stream into blocks, mirroring the block
builder's acceptance rule: extend the open chunk while the encoded size
stays within `bs`, else seal it and start a new chunk. -/
def chunksAux (bs : Nat) (cur : List (Key × Val)) :
    List (Key × Val) → List (List (Key × Val))
  | [] => [cur]
  | e :: rest =>
    if chunkSize cur + esize e ≤ bs then chunksAux bs (cur ++ [e]) rest
    else cur :: chunksAux bs [e] rest

/-- The block partition of an entry stream. -/
def chunks (bs : Nat) : List (Key × Val) → List (List (Key × Val))
  | [] => []
  | e :: rest => chunksAux bs [e] rest

/-- The data bytes of the block holding entries `c`. -/
def blockData (c : List (Key × Val)) : List Nat :=
  (c.map fun e => entryBytes e.1 e.2).flatten

/-- The offset column of the block holding entries `c`, starting at `acc`. -/
def offsetsOf : List (Key × Val) → Nat → List Nat
  | [], _ => []
  | e :: rest, acc => acc :: offsetsOf rest (acc + (entryBytes e.1 e.2).length)

/-- The block holding entries `c`. -/
def blockOf (c : List (Key × Val)) : Block := ⟨blockData c, offsetsOf c 0⟩

/-- The canonical block-iterator state over `blockOf c` positioned at entry
`j` (past the end when `j` is out of range). -/
def bIter (c : List (Key × Val)) (j : Nat) : BlockIterator :=
  (BlockIterator.new (blockOf c)).seek_to_index j

/-- The meta record of a sealed chunk at file offset `off`. -/
def metaOfChunk (off : Nat) (c : List (Key × Val)) : BlockMeta :=
  ⟨off, (c.headD ([], [])).1, (c.getLastD ([], [])).1⟩

/-- The encoded bytes of a sealed chunk. -/
def encChunk (c : List (Key × Val)) : List Nat := (blockOf c).encode

/-- The concatenated encodings of a list of sealed chunks. -/
def sealedData (cs : List (List (Key × Val))) : List Nat := (cs.map encChunk).flatten

/-- The meta records of a list of sealed chunks laid out from offset `off`. -/
def sealedMeta : List (List (Key × Val)) → Nat → List BlockMeta
  | [], _ => []
  | c :: rest, off => metaOfChunk off c :: sealedMeta rest (off + (encChunk c).length)

/-- Total encoded length of the chunks `cs.take i`. -/
def sumEnc (cs : List (List (Key × Val))) (i : Nat) : Nat :=
  ((cs.take i).map fun c => (encChunk c).length).sum

/-- The abstraction relation between a mid-build `SsTableBuilder` state and
the sealed chunks `S` plus the open chunk `O` it represents. -/
def Represents (bs : Nat) (S : List (List (Key × Val))) (O : List (Key × Val))
    (b : SsTableBuilder) : Prop :=
  b.block_size = bs ∧
  b.builder = ⟨offsetsOf O 0, blockData O, bs⟩ ∧
  b.data = sealedData S ∧
  b.meta = sealedMeta S 0 ∧
  O ≠ [] ∧
  b.first_key = (O.headD ([], [])).1 ∧
  b.last_key = (O.getLastD ([], [])).1

/-- Well-formed entries: non-empty keys, and key/value lengths that fit
their 16-bit length fields. -/
def wfEntry (e : Key × Val) : Prop :=
  e.1 ≠ [] ∧ e.1.length < 65536 ∧ e.2.length < 65536

/-- Byte position of entry `j` inside the data area of `blockOf c`. -/
def entryPos (c : List (Key × Val)) (j : Nat) : Nat := (blockData (c.take j)).length

/-- Pop the least wrapper of a sorted heap list into `current`: the common
shape of the states `MergeIterator::create` and `MergeIterator::next`
leave behind. -/
def popHeap (h : List HeapWrapper) : MergeIterator :=
  match h with
  | [] => ⟨[], none⟩
  | w :: rest => ⟨rest, some w⟩

/-- A well-formed heap content: no wrapper is poisoned, every wrapper is
valid (non-empty), every wrapper's entries carry strictly ascending keys,
and wrappers are identified by their source index. -/
def GoodW (W : List HeapWrapper) : Prop :=
  (∀ w ∈ W, w.iter.poison = false) ∧
  (∀ w ∈ W, w.iter.entries ≠ []) ∧
  (∀ w ∈ W, List.Chain' (fun a b => keyLt a.1 b.1 = true) w.iter.entries) ∧
  (∀ x ∈ W, ∀ y ∈ W, x.idx = y.idx → x = y)

/-! ## Serialization lemmas -/

theorem u16be_length (n : Nat) : (u16be n).length = 2 := rfl

theorem flat_u16_length (os : List Nat) : ((os.map u16be).flatten).length = 2 * os.length := by
  induction os with
  | nil => rfl
  | cons o os ih =>
    simp only [List.map_cons, List.flatten_cons, List.length_append, ih, u16be_length,
      List.length_cons]
    omega

theorem readU16_shift (A B : List Nat) (i : Nat) :
    readU16 (A ++ B) (A.length + i) = readU16 B i := by
  simp only [readU16]
  rw [List.getD_append_right A B 0 (A.length + i) (by omega),
    List.getD_append_right A B 0 (A.length + i + 1) (by omega)]
  have e1 : A.length + i - A.length = i := by omega
  have e2 : A.length + i + 1 - A.length = i + 1 := by omega
  rw [e1, e2]

theorem readU16_u16be (n : Nat) (hn : n < 65536) (B : List Nat) :
    readU16 (u16be n ++ B) 0 = n := by
  have h1 : n / 256 < 256 := by omega
  simp only [readU16, u16be, List.cons_append, List.nil_append, List.getD_cons_zero,
    List.getD_cons_succ, Nat.mod_eq_of_lt h1]
  omega

theorem readOffsets_succ (bs : List Nat) (ptr n : Nat) :
    readOffsets bs ptr (n + 1) = readU16 bs ptr :: readOffsets bs (ptr + 2) n := by
  simp only [readOffsets, List.range_succ_eq_map, List.map_cons, List.map_map]
  refine congrArg₂ _ (by simp) (List.map_congr_left ?_)
  intro j _
  have : ptr + 2 * (j + 1) = ptr + 2 + 2 * j := by omega
  simp [Function.comp, this]

theorem readOffsets_spec (A : List Nat) (os : List Nat) (C : List Nat)
    (h : ∀ o ∈ os, o < 65536) :
    readOffsets (A ++ ((os.map u16be).flatten ++ C)) A.length os.length = os := by
  induction os generalizing A with
  | nil => rfl
  | cons o os ih =>
    simp only [List.length_cons, readOffsets_succ, List.map_cons, List.flatten_cons]
    have hassoc : A ++ (u16be o ++ (os.map u16be).flatten ++ C) =
        A ++ (u16be o ++ ((os.map u16be).flatten ++ C)) := by
      simp [List.append_assoc]
    rw [hassoc]
    have hhead : readU16 (A ++ (u16be o ++ ((os.map u16be).flatten ++ C))) A.length = o := by
      have := readU16_shift A (u16be o ++ ((os.map u16be).flatten ++ C)) 0
      rw [Nat.add_zero] at this
      rw [this, readU16_u16be o (h o (by simp)) _]
    have htail : readOffsets (A ++ (u16be o ++ ((os.map u16be).flatten ++ C)))
        (A.length + 2) os.length = os := by
      have hA2 : A.length + 2 = (A ++ u16be o).length := by simp [u16be]
      have hre : A ++ (u16be o ++ ((os.map u16be).flatten ++ C)) =
          (A ++ u16be o) ++ ((os.map u16be).flatten ++ C) := by
        simp [List.append_assoc]
      rw [hA2, hre]
      exact ih (A ++ u16be o) (fun x hx => h x (by simp [hx]))
    rw [hhead, htail]

/-- The decode-of-encode identity for any block whose entry count and
offsets fit the 16-bit fields (the offsets bound mirrors `Vec<u16>`). -/
theorem decode_encode (b : Block) (h1 : b.offsets.length < 65536)
    (h2 : ∀ o ∈ b.offsets, o < 65536) :
    Block.decode (Block.encode b) = some b := by
  have hlen : (Block.encode b).length = b.data.length + 2 * b.offsets.length + 2 := by
    rw [Block.encode, List.length_append, List.length_append, flat_u16_length, u16be_length]
  have hmodn : b.offsets.length % 65536 = b.offsets.length := Nat.mod_eq_of_lt h1
  have hb : Block.encode b =
      (b.data ++ (b.offsets.map u16be).flatten) ++ u16be b.offsets.length := by
    simp [Block.encode, hmodn, List.append_assoc]
  have hlen2 : (b.data ++ (b.offsets.map u16be).flatten).length =
      b.data.length + 2 * b.offsets.length := by
    rw [List.length_append, flat_u16_length]
  have hreadn : readU16 (Block.encode b) (b.data.length + 2 * b.offsets.length) =
      b.offsets.length := by
    rw [hb]
    have := readU16_shift (b.data ++ (b.offsets.map u16be).flatten) (u16be b.offsets.length) 0
    rw [Nat.add_zero, hlen2] at this
    rw [this]
    have : u16be b.offsets.length = u16be b.offsets.length ++ [] := by simp
    rw [this, readU16_u16be b.offsets.length h1]
  have htake : (Block.encode b).take b.data.length = b.data := by
    rw [Block.encode, List.append_assoc]
    exact List.take_left b.data _
  have hoffsets : readOffsets (Block.encode b) b.data.length b.offsets.length = b.offsets := by
    rw [Block.encode, List.append_assoc]
    exact readOffsets_spec b.data b.offsets (u16be (b.offsets.length % 65536)) h2
  rw [Block.decode]
  rw [hlen]
  rw [if_neg (by omega)]
  have e1 : b.data.length + 2 * b.offsets.length + 2 - 2 = b.data.length + 2 * b.offsets.length := by
    omega
  simp only [e1, hreadn]
  rw [if_neg (by omega)]
  have e2 : b.data.length + 2 * b.offsets.length - b.offsets.length * 2 = b.data.length := by
    omega
  simp only [e2, htake, hoffsets]

/-- A convenient closed form of `Block.decode` when the index arithmetic
does not underflow. -/
theorem decode_eq (bytes : List Nat) (h2 : 2 ≤ bytes.length)
    (hguard : readU16 bytes (bytes.length - 2) * 2 ≤ bytes.length - 2) :
    Block.decode bytes =
      some ⟨bytes.take (bytes.length - 2 - readU16 bytes (bytes.length - 2) * 2),
        readOffsets bytes (bytes.length - 2 - readU16 bytes (bytes.length - 2) * 2)
          (readU16 bytes (bytes.length - 2))⟩ := by
  simp only [Block.decode]
  rw [if_neg (by omega), if_neg (by omega)]

theorem flatten_replicate_pair (k : Nat) :
    (List.replicate k ([0, 0] : List Nat)).flatten = List.replicate (2 * k) 0 := by
  induction k with
  | zero => rfl
  | succ k ih =>
    rw [List.replicate_succ, List.flatten_cons, ih]
    have h2 : 2 * (k + 1) = 2 + 2 * k := by omega
    rw [h2, List.replicate_add]
    rfl

theorem getD_replicate_zero (n i : Nat) : (List.replicate n (0 : Nat)).getD i 0 = 0 := by
  induction n generalizing i with
  | zero => simp [List.getD]
  | succ n ih =>
    cases i with
    | zero => simp [List.replicate_succ]
    | succ i => simp [List.replicate_succ, List.getD_cons_succ, ih]

/-- Round-trip failure for any block with a positive multiple of 65536 many
zero offsets: the trailer count wraps `as u16` to 0 and decode returns the
wrong structure. -/
theorem roundtrip_fails_general (k : Nat) (hmod : k % 65536 = 0) (hpos : 0 < k) :
    Block.decode (Block.encode ⟨[], List.replicate k 0⟩) ≠ some ⟨[], List.replicate k 0⟩ := by
  have h0 : u16be 0 = [0, 0] := rfl
  have henc : Block.encode ⟨[], List.replicate k 0⟩ = List.replicate (2 * k) 0 ++ [0, 0] := by
    unfold Block.encode
    show [] ++ ((List.replicate k (0 : Nat)).map u16be).flatten ++
        u16be ((List.replicate k (0 : Nat)).length % 65536) = _
    rw [List.map_replicate, h0, flatten_replicate_pair, List.length_replicate, hmod, h0,
      List.nil_append]
  have hlen : (List.replicate (2 * k) (0 : Nat) ++ [0, 0]).length = 2 * k + 2 := by
    rw [List.length_append, List.length_replicate]
    rfl
  have hgetD : ∀ i, (List.replicate (2 * k) (0 : Nat) ++ [0, 0]).getD i 0 = 0 := by
    intro i
    rcases lt_or_ge i (2 * k) with h | h
    · rw [List.getD_append _ _ _ _ (by rw [List.length_replicate]; omega),
        getD_replicate_zero]
    · rw [List.getD_append_right _ _ _ _ (by rw [List.length_replicate]; omega)]
      rcases hj : i - (List.replicate (2 * k) (0 : Nat)).length with _ | j
      · rfl
      · rcases j with _ | j <;> rfl
  have hread : ∀ i, readU16 (List.replicate (2 * k) (0 : Nat) ++ [0, 0]) i = 0 := by
    intro i
    rw [readU16, hgetD, hgetD]
  have hdec : Block.decode (List.replicate (2 * k) (0 : Nat) ++ [0, 0]) =
      some ⟨List.replicate (2 * k) 0, []⟩ := by
    rw [decode_eq _ (by rw [hlen]; omega) (by rw [hlen, hread]; omega)]
    rw [hlen, hread]
    have e : 2 * k + 2 - 2 - 0 * 2 = 2 * k := by omega
    rw [e]
    rw [List.take_append_of_le_length (by simp), List.take_replicate, Nat.min_self]
    rfl
  rw [henc, hdec]
  intro hcon
  have hdata : List.replicate (2 * k) (0 : Nat) = [] := by
    have := congrArg (fun o => (o.getD ⟨[], []⟩).data) hcon
    simpa using this
  have hlen2 := congrArg List.length hdata
  rw [List.length_replicate] at hlen2
  simp at hlen2
  omega

/-- C4 (counterexample): the round-trip does not hold for every `Block`.  At
a block with 65536 entries the trailer count is written `as u16` and wraps
to 0, so decoding returns a block with the wrong `data` and no offsets. -/
theorem c4_counterexample :
    Block.decode (Block.encode ⟨[], List.replicate 65536 0⟩) ≠
      some ⟨[], List.replicate 65536 0⟩ :=
  roundtrip_fails_general 65536 (by norm_num) (by norm_num)

/-- C4 (amended): for every block whose entry count fits the 16-bit trailer
field (the offsets themselves are 16-bit by construction, mirrored by the
hypothesis), `Block::decode (Block::encode b)` yields a block structurally
equal to `b`: equal `data` and equal `offsets`. -/
theorem c4_roundtrip (b : Block) (hcount : b.offsets.length < 65536)
    (hoff : ∀ o ∈ b.offsets, o < 65536) :
    Block.decode (Block.encode b) = some b :=
  decode_encode b hcount hoff

/-- C4 witness: the round-trip at a concrete block. -/
theorem c4_witness :
    (⟨[9, 8, 7], [0, 1]⟩ : Block).offsets.length < 65536 ∧
      (∀ o ∈ (⟨[9, 8, 7], [0, 1]⟩ : Block).offsets, o < 65536) ∧
      Block.decode (Block.encode ⟨[9, 8, 7], [0, 1]⟩) = some ⟨[9, 8, 7], [0, 1]⟩ :=
  ⟨by decide, by decide, c4_roundtrip ⟨[9, 8, 7], [0, 1]⟩ (by decide) (by decide)⟩

/-- C5 (counterexample): `Block::decode` does not fail when an offset points
past the computed data boundary; on `[0, 16, 0, 1]` the single decoded
offset 16 points past the empty decoded `data`, yet a block is returned. -/
theorem c5_counterexample :
    Block.decode [0, 16, 0, 1] = some ⟨[], [16]⟩ ∧
      ((Block.decode [0, 16, 0, 1]).getD ⟨[], []⟩).offsets.any
        (fun o => decide (((Block.decode [0, 16, 0, 1]).getD ⟨[], []⟩).data.length < o)) = true := by
  constructor <;> decide

/-- C5 (amended): the underflow cases do make `Block::decode` fail (panic,
modelled as `none`): fewer than 2 input bytes, or a trailer count `n` with
`2 + 2n > len(bytes)`.  Offsets pointing past the data boundary are not
checked (see the counterexample). -/
theorem c5_decode_fails (bytes : List Nat)
    (h : bytes.length < 2 ∨ bytes.length < 2 + 2 * readU16 bytes (bytes.length - 2)) :
    Block.decode bytes = none := by
  rw [Block.decode]
  by_cases hlt : bytes.length < 2
  · rw [if_pos hlt]
  · rw [if_neg hlt]
    simp only
    rw [if_pos (by omega)]

/-- C5 witness: decode fails on a concrete short input and on a concrete
input whose trailer count overruns the input. -/
theorem c5_witness :
    (([0, 5] : List Nat).length < 2 ∨
        ([0, 5] : List Nat).length < 2 + 2 * readU16 [0, 5] (([0, 5] : List Nat).length - 2)) ∧
      Block.decode [0, 5] = none :=
  ⟨by decide, c5_decode_fails [0, 5] (by decide)⟩

/-- C10: `SsTableBuilder::build` on a builder to which no key was ever added
panics (it unwraps `first()`/`last()` of the empty meta sequence, modelled
as `none`): building requires at least one added key. -/
theorem c10_empty_build_panics (block_size id : Nat) :
    (SsTableBuilder.new block_size).build id = none := rfl

/-- C9 (counterexample): an invalid block iterator does not return an empty
value slice.  Over the single-entry block for `("a", "1")`, stepping past
the last entry clears the key (the iterator is invalid) but leaves the value
range pointing at the previous entry, so `value()` still returns `"1"`. -/
theorem c9_counterexample :
    BlockIterator.is_valid
        ((BlockIterator.create_and_seek_to_first ⟨[0, 1, 97, 0, 1, 49], [0]⟩).next) = false ∧
      ((BlockIterator.create_and_seek_to_first ⟨[0, 1, 97, 0, 1, 49], [0]⟩).next).key = [] ∧
      BlockIterator.value
        ((BlockIterator.create_and_seek_to_first ⟨[0, 1, 97, 0, 1, 49], [0]⟩).next) = [49] ∧
      BlockIterator.value
        ((BlockIterator.create_and_seek_to_first ⟨[0, 1, 97, 0, 1, 49], [0]⟩).next) ≠ [] := by
  refine ⟨by decide, by decide, by decide, by decide⟩

/-- C9 (amended): for every invalid block iterator `key()` returns the empty
slice (invalidity is exactly an empty owned key buffer); `value()` returns
the slice of the retained `value_range`, which seeking past the end does not
clear — so after stepping past the last entry `value()` still returns the
previously current value rather than an empty slice. -/
theorem c9_key_empty_value_stale (it : BlockIterator) :
    (BlockIterator.is_valid it = false → it.key = []) ∧
      (∀ index, it.block.offsets.length ≤ index →
        BlockIterator.value (it.seek_to_index index) = BlockIterator.value it) := by
  constructor
  · intro h
    simp only [BlockIterator.is_valid, Bool.not_eq_eq_eq_not, Bool.not_false] at h
    exact List.isEmpty_iff.mp h
  · intro index hidx
    rw [BlockIterator.seek_to_index, if_pos (by omega)]
    rfl

/-- C9 witness: the amended statement applied to the concrete invalid
iterator of the counterexample scenario. -/
theorem c9_witness :
    (BlockIterator.is_valid
        ((BlockIterator.create_and_seek_to_first ⟨[0, 1, 97, 0, 1, 49], [0]⟩).next) = false →
      ((BlockIterator.create_and_seek_to_first ⟨[0, 1, 97, 0, 1, 49], [0]⟩).next).key = []) ∧
      (∀ index,
        ((BlockIterator.create_and_seek_to_first ⟨[0, 1, 97, 0, 1, 49], [0]⟩).next).block.offsets.length ≤ index →
        BlockIterator.value
            (((BlockIterator.create_and_seek_to_first ⟨[0, 1, 97, 0, 1, 49], [0]⟩).next).seek_to_index index) =
          BlockIterator.value ((BlockIterator.create_and_seek_to_first ⟨[0, 1, 97, 0, 1, 49], [0]⟩).next)) :=
  c9_key_empty_value_stale ((BlockIterator.create_and_seek_to_first ⟨[0, 1, 97, 0, 1, 49], [0]⟩).next)

theorem mem_heapPush (w x : HeapWrapper) (h : List HeapWrapper) :
    x ∈ heapPush w h ↔ x = w ∨ x ∈ h := by
  induction h with
  | nil => simp [heapPush]
  | cons y ys ih =>
    by_cases hc : wLe w y = true
    · simp [heapPush, hc]
    · simp only [heapPush, hc, Bool.false_eq_true, if_false, List.mem_cons, ih]
      tauto

theorem mem_createGo (its : List MIter) :
    ∀ i x, x ∈ createGo i its ↔
      ∃ j, j < (its.filter MIter.isValid).length ∧
        x = ⟨i + j, (its.filter MIter.isValid).getD j ⟨[], false⟩⟩ := by
  induction its with
  | nil => simp [createGo]
  | cons it rest ih =>
    intro i x
    by_cases hv : MIter.isValid it = true
    · simp only [createGo, hv, if_pos, mem_heapPush, ih (i + 1) x, List.filter_cons_of_pos hv]
      constructor
      · rintro (rfl | ⟨j, hj, rfl⟩)
        · exact ⟨0, by simp, by simp⟩
        · exact ⟨j + 1, by simpa using hj, by simp [List.getD_cons_succ]; omega⟩
      · rintro ⟨j, hj, rfl⟩
        cases j with
        | zero => left; simp
        | succ j =>
          right
          refine ⟨j, by simpa using hj, ?_⟩
          simp [List.getD_cons_succ]
          omega
    · have hv' : ¬ MIter.isValid it = true := hv
      simp only [createGo, hv, Bool.false_eq_true, if_false, ih i x,
        List.filter_cons_of_neg (by simpa using hv')]
  
theorem allWrappers_create (its : List MIter) :
    allWrappers (MergeIterator.create its) = createGo 0 its := by
  rw [MergeIterator.create]
  cases h : createGo 0 its with
  | nil => simp [allWrappers, h]
  | cons w rest => simp [allWrappers]

/-- C7 (counterexample): source priorities are not the input-vector
positions.  With an invalid first input and a valid second one, the retained
iterator is assigned priority 0, not its input position 1 (the counter is
advanced only when an iterator is pushed). -/
theorem c7_counterexample :
    MergeIterator.create [⟨[], false⟩, ⟨[([97], [65])], false⟩] =
      ⟨[], some ⟨0, ⟨[([97], [65])], false⟩⟩⟩ ∧
      (0 : Nat) ≠ 1 := by
  refine ⟨by decide, by decide⟩

/-- C7 (amended): the priority assigned to each retained iterator is its
rank among the valid inputs (invalid inputs are skipped without advancing
the counter, shifting the priorities of later sources down); the wrappers of
the freshly created merge iterator are exactly the valid inputs paired with
their filtered positions. -/
theorem c7_priorities (its : List MIter) (x : HeapWrapper) :
    x ∈ allWrappers (MergeIterator.create its) ↔
      ∃ j, j < (its.filter MIter.isValid).length ∧
        x = ⟨j, (its.filter MIter.isValid).getD j ⟨[], false⟩⟩ := by
  rw [allWrappers_create]
  simpa using mem_createGo its 0 x

theorem skipDup_cons_poison (ck : Key) (w : HeapWrapper) (rest : List HeapWrapper)
    (hk : w.iter.keyI = ck) (hp : w.iter.poison = true) :
    skipDup ck (w :: rest) = (some (), rest) := by
  have hn : w.iter.nextI = Except.error () := by rw [MIter.nextI, if_pos hp]
  rw [skipDup, if_pos hk]
  split <;> simp_all

/-- C8: during the duplicate-skipping phase of `MergeIterator::next`, if
advancing the heap's top iterator — the one whose key equals the current
key — returns an error, that iterator is popped from the heap, `current` is
cleared (the merge iterator becomes invalid) and the error is returned. -/
theorem c8_error_propagation (m : MergeIterator) (cur w : HeapWrapper)
    (rest : List HeapWrapper) (hc : m.current = some cur)
    (hv : cur.iter.isValid = true) (hh : m.iters = w :: rest)
    (hk : w.iter.keyI = cur.iter.keyI) (hp : w.iter.poison = true) :
    m.nextM = (some (), ⟨rest, none⟩) ∧
      MergeIterator.isValidM ⟨rest, none⟩ = false := by
  refine ⟨?_, rfl⟩
  rw [MergeIterator.nextM, hc]
  simp only [hv, Bool.not_true, Bool.false_eq_true, if_false]
  rw [hh, skipDup_cons_poison _ _ _ hk hp]

/-- C8 witness: the theorem applied to a concrete merge state whose heap top
shares the current key and errors when advanced. -/
theorem c8_witness :
    (⟨[⟨1, ⟨[([5], [2])], true⟩⟩], some ⟨0, ⟨[([5], [1])], false⟩⟩⟩ : MergeIterator).current =
        some ⟨0, ⟨[([5], [1])], false⟩⟩ ∧
      (⟨0, ⟨[([5], [1])], false⟩⟩ : HeapWrapper).iter.isValid = true ∧
      (⟨[⟨1, ⟨[([5], [2])], true⟩⟩], some ⟨0, ⟨[([5], [1])], false⟩⟩⟩ : MergeIterator).iters =
        [⟨1, ⟨[([5], [2])], true⟩⟩] ∧
      (⟨1, ⟨[([5], [2])], true⟩⟩ : HeapWrapper).iter.keyI =
        (⟨0, ⟨[([5], [1])], false⟩⟩ : HeapWrapper).iter.keyI ∧
      (⟨1, ⟨[([5], [2])], true⟩⟩ : HeapWrapper).iter.poison = true ∧
      (⟨[⟨1, ⟨[([5], [2])], true⟩⟩], some ⟨0, ⟨[([5], [1])], false⟩⟩⟩ : MergeIterator).nextM =
        (some (), ⟨[], none⟩) ∧
      MergeIterator.isValidM ⟨[], none⟩ = false := by
  refine ⟨by decide, by decide, by decide, by decide, by decide, ?_, ?_⟩
  · exact (c8_error_propagation _ ⟨0, ⟨[([5], [1])], false⟩⟩ ⟨1, ⟨[([5], [2])], true⟩⟩ []
      rfl (by decide) rfl (by decide) (by decide)).1
  · exact (c8_error_propagation ⟨[⟨1, ⟨[([5], [2])], true⟩⟩], some ⟨0, ⟨[([5], [1])], false⟩⟩⟩
      ⟨0, ⟨[([5], [1])], false⟩⟩ ⟨1, ⟨[([5], [2])], true⟩⟩ []
      rfl (by decide) rfl (by decide) (by decide)).2

/-! ## Order lemmas for `keyLt` -/

theorem keyLt_irrefl (a : List Nat) : keyLt a a = false := by
  induction a with
  | nil => rfl
  | cons x xs ih => simp [keyLt, ih]

theorem keyLt_trans {a b c : List Nat} (h1 : keyLt a b = true) (h2 : keyLt b c = true) :
    keyLt a c = true := by
  induction a generalizing b c with
  | nil =>
    cases b with
    | nil => simp [keyLt] at h1
    | cons y ys =>
      cases c with
      | nil => simp [keyLt] at h2
      | cons z zs => rfl
  | cons x xs ih =>
    cases b with
    | nil => simp [keyLt] at h1
    | cons y ys =>
      cases c with
      | nil => simp [keyLt] at h2
      | cons z zs =>
        simp only [keyLt] at h1 h2 ⊢
        rcases Nat.lt_trichotomy x y with hxy | hxy | hxy
        · rcases Nat.lt_trichotomy y z with hyz | hyz | hyz
          · rw [if_pos (by omega)]
          · rw [if_pos (by omega)]
          · rw [if_neg (by omega), if_pos hyz] at h2
            exact absurd h2 (by simp)
        · subst hxy
          rw [if_neg (by omega), if_neg (by omega)] at h1
          rcases Nat.lt_trichotomy x z with hxz | hxz | hxz
          · rw [if_pos hxz]
          · subst hxz
            rw [if_neg (by omega), if_neg (by omega)] at h2
            rw [if_neg (by omega), if_neg (by omega)]
            exact ih h1 h2
          · rw [if_neg (by omega), if_pos hxz] at h2
            exact absurd h2 (by simp)
        · rw [if_neg (by omega), if_pos hxy] at h1
          exact absurd h1 (by simp)

theorem keyLt_conn (a b : List Nat) :
    keyLt a b = true ∨ keyLt b a = true ∨ a = b := by
  induction a generalizing b with
  | nil =>
    cases b with
    | nil => right; right; rfl
    | cons y ys => left; rfl
  | cons x xs ih =>
    cases b with
    | nil => right; left; rfl
    | cons y ys =>
      by_cases hxy : x < y
      · left; simp [keyLt, hxy]
      · by_cases hyx : y < x
        · right; left; simp [keyLt, hyx]
        · have hxyeq : x = y := by omega
          subst hxyeq
          rcases ih ys with h | h | h
          · left; simp [keyLt, h]
          · right; left; simp [keyLt, h]
          · right; right; rw [h]

theorem keyLt_asymm {a b : List Nat} (h : keyLt a b = true) : keyLt b a = false := by
  by_cases h2 : keyLt b a = true
  · have := keyLt_trans h h2
    rw [keyLt_irrefl] at this
    cases this
  · simpa using h2

/-! ## Entry parsing inside block data -/

theorem entryBytes_length (k : Key) (v : Val) :
    (entryBytes k v).length = 4 + k.length + v.length := by
  simp [entryBytes, u16be]
  omega

/-- Parsing the record of entry `(k, v)` located after a region `A`: the two
length fields read back, and the key and value slices extract exactly. -/
theorem entry_parse (A B : List Nat) (k : Key) (v : Val)
    (hk : k.length < 65536) (hv : v.length < 65536) :
    readU16 (A ++ (entryBytes k v ++ B)) A.length = k.length ∧
      ((A ++ (entryBytes k v ++ B)).drop (A.length + 2)).take k.length = k ∧
      readU16 (A ++ (entryBytes k v ++ B)) (A.length + 2 + k.length) = v.length ∧
      ((A ++ (entryBytes k v ++ B)).take (A.length + 2 + k.length + 2 + v.length)).drop
        (A.length + 2 + k.length + 2) = v := by
  have hpre : A ++ (entryBytes k v ++ B) =
      A ++ (u16be k.length ++ (k ++ (u16be v.length ++ (v ++ B)))) := by
    simp [entryBytes, List.append_assoc]
  refine ⟨?_, ?_, ?_, ?_⟩
  · rw [hpre]
    have := readU16_shift A (u16be k.length ++ (k ++ (u16be v.length ++ (v ++ B)))) 0
    rw [Nat.add_zero] at this
    rw [this, readU16_u16be k.length hk]
  · rw [hpre]
    have hd : (A ++ (u16be k.length ++ (k ++ (u16be v.length ++ (v ++ B))))).drop
        (A.length + 2) = k ++ (u16be v.length ++ (v ++ B)) := by
      have h1 : A ++ (u16be k.length ++ (k ++ (u16be v.length ++ (v ++ B)))) =
          (A ++ u16be k.length) ++ (k ++ (u16be v.length ++ (v ++ B))) := by
        simp [List.append_assoc]
      have h2 : A.length + 2 = (A ++ u16be k.length).length + 0 := by
        simp [u16be]
      rw [h1, h2, List.drop_append 0]
      rfl
    rw [hd, List.take_append_of_le_length (by simp), List.take_length]
  · rw [hpre]
    have h1 : A ++ (u16be k.length ++ (k ++ (u16be v.length ++ (v ++ B)))) =
        ((A ++ u16be k.length) ++ k) ++ (u16be v.length ++ (v ++ B)) := by
      simp [List.append_assoc]
    have h2 : A.length + 2 + k.length = ((A ++ u16be k.length) ++ k).length + 0 := by
      simp [u16be]
      omega
    rw [h1, h2, readU16_shift _ _ 0, readU16_u16be v.length hv]
  · have h1 : A ++ (entryBytes k v ++ B) =
        (((A ++ u16be k.length) ++ k) ++ u16be v.length) ++ (v ++ B) := by
      simp [entryBytes, List.append_assoc]
    have hll : (((A ++ u16be k.length) ++ k) ++ u16be v.length).length =
        A.length + 2 + k.length + 2 := by
      simp [u16be]
      omega
    rw [h1]
    have h2 : A.length + 2 + k.length + 2 + v.length =
        (((A ++ u16be k.length) ++ k) ++ u16be v.length).length + v.length := by
      rw [hll]
    rw [h2, List.take_append v.length]
    have h3 : A.length + 2 + k.length + 2 =
        (((A ++ u16be k.length) ++ k) ++ u16be v.length).length + 0 := by
      rw [hll]
    rw [h3, List.drop_append 0]
    rw [List.drop_zero, List.take_append_of_le_length (by simp), List.take_length]

/-! ## Block-of-chunk lemmas -/

theorem blockData_nil : blockData [] = [] := rfl

theorem blockData_cons (e : Key × Val) (c : List (Key × Val)) :
    blockData (e :: c) = entryBytes e.1 e.2 ++ blockData c := by
  simp [blockData]

theorem blockData_append (a b : List (Key × Val)) :
    blockData (a ++ b) = blockData a ++ blockData b := by
  simp [blockData]

theorem offsetsOf_length (c : List (Key × Val)) : ∀ acc, (offsetsOf c acc).length = c.length := by
  induction c with
  | nil => intro acc; rfl
  | cons e rest ih => intro acc; simp [offsetsOf, ih]

theorem offsetsOf_append_single (c : List (Key × Val)) (e : Key × Val) :
    ∀ acc, offsetsOf (c ++ [e]) acc = offsetsOf c acc ++ [acc + (blockData c).length] := by
  induction c with
  | nil => intro acc; simp [offsetsOf, blockData_nil]
  | cons f rest ih =>
    intro acc
    have hlen : acc + (entryBytes f.1 f.2).length + (blockData rest).length =
        acc + (blockData (f :: rest)).length := by
      rw [blockData_cons, List.length_append]
      omega
    rw [List.cons_append]
    show acc :: offsetsOf (rest ++ [e]) (acc + (entryBytes f.1 f.2).length) =
      (acc :: offsetsOf rest (acc + (entryBytes f.1 f.2).length)) ++
        [acc + (blockData (f :: rest)).length]
    rw [List.cons_append, ih, hlen]

theorem offsetsOf_getD (c : List (Key × Val)) :
    ∀ acc j, j < c.length → (offsetsOf c acc).getD j 0 = acc + (blockData (c.take j)).length := by
  induction c with
  | nil => intro acc j hj; simp at hj
  | cons e rest ih =>
    intro acc j hj
    cases j with
    | zero => simp [offsetsOf, blockData_nil]
    | succ j =>
      simp only [offsetsOf, List.getD_cons_succ]
      rw [ih _ j (by simpa using hj)]
      simp only [List.take_succ_cons, blockData_cons, List.length_append]
      omega

theorem blockOf_decompose (c : List (Key × Val)) (j : Nat) (hj : j < c.length) :
    blockData c = blockData (c.take j) ++
      (entryBytes (c.getD j ([], [])).1 (c.getD j ([], [])).2 ++ blockData (c.drop (j + 1))) := by
  rw [List.getD_eq_get c ([], []) hj]
  conv_lhs => rw [← List.take_append_drop j c, List.drop_eq_get_cons hj]
  rw [blockData_append, blockData_cons]

/-- The entry parsed at index `j` of `blockOf c`: key content and value
range. -/
theorem seek_util_at (c : List (Key × Val)) (j : Nat) (hj : j < c.length)
    (hwf : ∀ e ∈ c, wfEntry e) :
    BlockIterator.seek_to_index_util (blockOf c) j =
      ((c.getD j ([], [])).1,
        ((blockData (c.take j)).length + 2 + (c.getD j ([], [])).1.length + 2,
         (blockData (c.take j)).length + 2 + (c.getD j ([], [])).1.length + 2 +
           (c.getD j ([], [])).2.length)) := by
  have hmem : c.getD j ([], []) ∈ c := by
    rw [List.getD_eq_get c ([], []) hj]
    exact List.get_mem c j hj
  obtain ⟨hk1, hk2, hv2⟩ := hwf _ hmem
  have hpe := entry_parse (blockData (c.take j)) (blockData (c.drop (j + 1)))
    (c.getD j ([], [])).1 (c.getD j ([], [])).2 hk2 hv2
  rw [← blockOf_decompose c j hj] at hpe
  obtain ⟨hA, hB, hC, -⟩ := hpe
  have hoff : (offsetsOf c 0).getD j 0 = (blockData (c.take j)).length := by
    have := offsetsOf_getD c 0 j hj
    simpa using this
  simp only [BlockIterator.seek_to_index_util, blockOf]
  rw [hoff, hA, hB, hC]

/-- The canonical iterator state at a valid index. -/
theorem seek_to_index_at (it : BlockIterator) (c : List (Key × Val))
    (hb : it.block = blockOf c) (j : Nat) (hj : j < c.length)
    (hwf : ∀ e ∈ c, wfEntry e) :
    it.seek_to_index j =
      { block := blockOf c, key := (c.getD j ([], [])).1,
        value_range :=
          ((blockData (c.take j)).length + 2 + (c.getD j ([], [])).1.length + 2,
           (blockData (c.take j)).length + 2 + (c.getD j ([], [])).1.length + 2 +
             (c.getD j ([], [])).2.length),
        idx := j, first_key := it.first_key } := by
  rw [BlockIterator.seek_to_index]
  rw [if_neg (by rw [hb]; simp only [blockOf]; rw [offsetsOf_length]; omega)]
  rw [hb, seek_util_at c j hj hwf]

theorem seek_to_index_past (it : BlockIterator) (j : Nat)
    (h : it.block.offsets.length ≤ j) :
    it.seek_to_index j = { it with key := [] } := by
  rw [BlockIterator.seek_to_index, if_pos (by omega)]

/-- The value slice of the canonical state at a valid index is the stored
value. -/
theorem value_slice_at (c : List (Key × Val)) (j : Nat) (hj : j < c.length)
    (hwf : ∀ e ∈ c, wfEntry e) :
    ((blockData c).take
        ((blockData (c.take j)).length + 2 + (c.getD j ([], [])).1.length + 2 +
          (c.getD j ([], [])).2.length)).drop
      ((blockData (c.take j)).length + 2 + (c.getD j ([], [])).1.length + 2) =
      (c.getD j ([], [])).2 := by
  have hmem : c.getD j ([], []) ∈ c := by
    rw [List.getD_eq_get c ([], []) hj]
    exact List.get_mem c j hj
  obtain ⟨hk1, hk2, hv2⟩ := hwf _ hmem
  have hpe := entry_parse (blockData (c.take j)) (blockData (c.drop (j + 1)))
    (c.getD j ([], [])).1 (c.getD j ([], [])).2 hk2 hv2
  rw [← blockOf_decompose c j hj] at hpe
  exact hpe.2.2.2

/-! ## Builder-state lemmas -/

theorem blockData_singleton (e : Key × Val) : blockData [e] = entryBytes e.1 e.2 := by
  simp [blockData]

theorem chunkSize_append_single (c : List (Key × Val)) (e : Key × Val) :
    chunkSize (c ++ [e]) = chunkSize c + esize e := by
  simp [chunkSize]
  omega

theorem sizeEstimate_chunk (c : List (Key × Val)) :
    (blockData c).length + 2 * c.length + 2 = chunkSize c := by
  induction c with
  | nil => rfl
  | cons e rest ih =>
    simp only [blockData_cons, List.length_append, entryBytes_length, chunkSize,
      List.map_cons, List.sum_cons, List.length_cons] at ih ⊢
    simp only [esize]
    omega

theorem offsetsOf_ne_nil (c : List (Key × Val)) (hc : c ≠ []) (acc : Nat) :
    offsetsOf c acc ≠ [] := by
  cases c with
  | nil => exact absurd rfl hc
  | cons e rest => simp [offsetsOf]

theorem headD_append_left (l l2 : List (Key × Val)) (hne : l ≠ []) (d : Key × Val) :
    (l ++ l2).headD d = l.headD d := by
  cases l with
  | nil => exact absurd rfl hne
  | cons a as => rfl

theorem getLastD_irrel {α : Type} (l : List α) (hne : l ≠ []) (d d' : α) :
    l.getLastD d = l.getLastD d' := by
  cases l with
  | nil => exact absurd rfl hne
  | cons a as => rfl

theorem sealedData_append_single (S : List (List (Key × Val))) (O : List (Key × Val)) :
    sealedData (S ++ [O]) = sealedData S ++ encChunk O := by
  simp [sealedData]

theorem sealedData_cons (c : List (Key × Val)) (cs : List (List (Key × Val))) :
    sealedData (c :: cs) = encChunk c ++ sealedData cs := by
  simp [sealedData]

theorem sealedMeta_length (cs : List (List (Key × Val))) :
    ∀ off, (sealedMeta cs off).length = cs.length := by
  induction cs with
  | nil => intro off; rfl
  | cons c rest ih => intro off; simp [sealedMeta, ih]

theorem sealedMeta_append_single (S : List (List (Key × Val))) (O : List (Key × Val)) :
    ∀ off, sealedMeta (S ++ [O]) off =
      sealedMeta S off ++ [metaOfChunk (off + (sealedData S).length) O] := by
  induction S with
  | nil => intro off; simp [sealedMeta, sealedData]
  | cons c rest ih =>
    intro off
    rw [List.cons_append]
    show metaOfChunk off c :: sealedMeta (rest ++ [O]) (off + (encChunk c).length) =
      metaOfChunk off c :: (sealedMeta rest (off + (encChunk c).length) ++
        [metaOfChunk (off + (sealedData (c :: rest)).length) O])
    rw [ih]
    have h2 : off + (encChunk c).length + (sealedData rest).length =
        off + (sealedData (c :: rest)).length := by
      rw [sealedData_cons, List.length_append]
      omega
    rw [h2]

theorem sealedMeta_lastKey (cs : List (List (Key × Val))) (hne : cs ≠ []) :
    ∀ off (d : BlockMeta),
      ((sealedMeta cs off).getLastD d).last_key = ((cs.getLastD []).getLastD ([], [])).1 := by
  induction cs with
  | nil => exact absurd rfl hne
  | cons c rest ih =>
    intro off d
    cases hr : rest with
    | nil => rfl
    | cons c2 rest2 =>
      have hne2 : rest ≠ [] := by rw [hr]; simp
      rw [← hr]
      show ((metaOfChunk off c :: sealedMeta rest (off + (encChunk c).length)).getLastD d).last_key =
        (((c :: rest).getLastD []).getLastD ([], [])).1
      rw [List.getLastD_cons, List.getLastD_cons]
      rw [ih hne2 _ (metaOfChunk off c)]
      rw [getLastD_irrel rest hne2 c []]

theorem sealedMeta_getD (cs : List (List (Key × Val))) :
    ∀ off i, i < cs.length →
      (sealedMeta cs off).getD i ⟨0, [], []⟩ =
        metaOfChunk (off + sumEnc cs i) (cs.getD i []) := by
  induction cs with
  | nil => intro off i hi; simp at hi
  | cons c rest ih =>
    intro off i hi
    cases i with
    | zero => simp [sealedMeta, sumEnc]
    | succ i =>
      simp only [sealedMeta, List.getD_cons_succ]
      rw [ih _ i (by simpa using hi)]
      have : off + (encChunk c).length + sumEnc rest i = off + sumEnc (c :: rest) (i + 1) := by
        simp only [sumEnc, List.take_succ_cons, List.map_cons, List.sum_cons]
        omega
      rw [this]

theorem bb_add_accept (bb : BlockBuilder) (k v : List Nat)
    (hcond : bb.offsets.isEmpty = true ∨
      bb.sizeEstimate + (k.length + v.length + 6) ≤ bb.block_size) :
    BlockBuilder.add bb k v =
      (true, ⟨bb.offsets ++ [bb.data.length], bb.data ++ entryBytes k v, bb.block_size⟩) := by
  have hc : (bb.offsets.isEmpty ||
      decide (bb.sizeEstimate + (k.length + v.length + 6) ≤ bb.block_size)) = true := by
    rcases hcond with h | h
    · simp [h]
    · simp [h]
  rw [BlockBuilder.add, if_pos hc]

theorem bb_add_reject (bb : BlockBuilder) (k v : List Nat) (h1 : bb.offsets ≠ [])
    (h2 : ¬ (bb.sizeEstimate + (k.length + v.length + 6) ≤ bb.block_size)) :
    BlockBuilder.add bb k v = (false, bb) := by
  have he : bb.offsets.isEmpty = false := by
    cases h : bb.offsets.isEmpty
    · rfl
    · exact absurd (List.isEmpty_iff.mp h) h1
  have hc : ¬ ((bb.offsets.isEmpty ||
      decide (bb.sizeEstimate + (k.length + v.length + 6) ≤ bb.block_size)) = true) := by
    simp [he, h2]
  rw [BlockBuilder.add, if_neg hc]

/-- Accepted add: the open chunk grows. -/
theorem represents_add_accept (bs : Nat) (S : List (List (Key × Val))) (O : List (Key × Val))
    (b : SsTableBuilder) (e : Key × Val) (hr : Represents bs S O b)
    (hk : (O.headD ([], [])).1 ≠ []) (hsz : chunkSize O + esize e ≤ bs) :
    Represents bs S (O ++ [e]) (b.add e.1 e.2) := by
  obtain ⟨hbs, hbb, hdata, hmeta, hO, hfk, hlk⟩ := hr
  have hest : b.builder.sizeEstimate = chunkSize O := by
    rw [hbb]
    simp only [BlockBuilder.sizeEstimate]
    rw [offsetsOf_length]
    exact sizeEstimate_chunk O
  have hadd := bb_add_accept b.builder e.1 e.2
    (Or.inr (by rw [hest, hbb]; simpa [esize] using hsz))
  rw [hbb] at hadd
  have hfe : b.first_key.isEmpty = false := by
    cases h : b.first_key.isEmpty
    · rfl
    · rw [hfk] at h
      exact absurd (List.isEmpty_iff.mp h) hk
  rw [SsTableBuilder.add]
  rw [hbb, hadd]
  refine ⟨hbs, ?_, hdata, hmeta, by simp, ?_, ?_⟩
  · have ho := offsetsOf_append_single O e 0
    rw [Nat.zero_add] at ho
    rw [← ho, blockData_append, blockData_singleton]
  · simp only [hfe, Bool.false_eq_true, if_false]
    rw [hfk, headD_append_left O [e] hO]
  · rw [List.getLastD_concat]

/-- Rejected add: the open chunk is sealed and a fresh one starts. -/
theorem represents_add_reject (bs : Nat) (S : List (List (Key × Val))) (O : List (Key × Val))
    (b : SsTableBuilder) (e : Key × Val) (hr : Represents bs S O b)
    (hsz : ¬ (chunkSize O + esize e ≤ bs)) :
    Represents bs (S ++ [O]) [e] (b.add e.1 e.2) := by
  obtain ⟨hbs, hbb, hdata, hmeta, hO, hfk, hlk⟩ := hr
  have hest : b.builder.sizeEstimate = chunkSize O := by
    rw [hbb]
    simp only [BlockBuilder.sizeEstimate]
    rw [offsetsOf_length]
    exact sizeEstimate_chunk O
  have hne : b.builder.offsets ≠ [] := by
    rw [hbb]
    exact offsetsOf_ne_nil O hO 0
  have hbsz : b.builder.block_size = bs := by rw [hbb]
  have hadd := bb_add_reject b.builder e.1 e.2 hne
    (by rw [hest, hbsz]; simp only [esize] at hsz; omega)
  have hnew : (BlockBuilder.add (BlockBuilder.new bs) e.1 e.2).2 =
      ⟨offsetsOf [e] 0, blockData [e], bs⟩ := by
    rw [bb_add_accept (BlockBuilder.new bs) e.1 e.2 (Or.inl rfl)]
    rw [blockData_singleton]
    rfl
  rw [SsTableBuilder.add, hadd, hbs, hnew]
  refine ⟨rfl, rfl, ?_, ?_, by simp, rfl, rfl⟩
  · rw [hdata, sealedData_append_single, hbb]
    rfl
  · rw [hmeta, hfk, hlk, hdata, sealedMeta_append_single]
    rw [Nat.zero_add]
    rfl

/-! ## Chunk-partition lemmas -/

theorem chunksAux_flatten (bs : Nat) :
    ∀ (es : List (Key × Val)) (O : List (Key × Val)), (chunksAux bs O es).flatten = O ++ es := by
  intro es
  induction es with
  | nil => intro O; simp [chunksAux]
  | cons e rest ih =>
    intro O
    rw [chunksAux]
    by_cases h : chunkSize O + esize e ≤ bs
    · rw [if_pos h, ih (O ++ [e])]
      simp
    · rw [if_neg h]
      rw [List.flatten_cons, ih [e]]
      simp

theorem chunksAux_mem_ne_nil (bs : Nat) :
    ∀ (es : List (Key × Val)) (O : List (Key × Val)), O ≠ [] →
      ∀ c ∈ chunksAux bs O es, c ≠ [] := by
  intro es
  induction es with
  | nil =>
    intro O hO c hc
    rw [chunksAux] at hc
    simp at hc
    rw [hc]
    exact hO
  | cons e rest ih =>
    intro O hO c hc
    rw [chunksAux] at hc
    by_cases h : chunkSize O + esize e ≤ bs
    · rw [if_pos h] at hc
      exact ih (O ++ [e]) (by simp) c hc
    · rw [if_neg h] at hc
      rcases List.mem_cons.mp hc with rfl | hc2
      · exact hO
      · exact ih [e] (by simp) c hc2

theorem chunksAux_mem_size (bs : Nat) :
    ∀ (es : List (Key × Val)) (O : List (Key × Val)),
      (O.length = 1 ∨ chunkSize O ≤ bs) →
      ∀ c ∈ chunksAux bs O es, c.length = 1 ∨ chunkSize c ≤ bs := by
  intro es
  induction es with
  | nil =>
    intro O hO c hc
    rw [chunksAux] at hc
    simp at hc
    rw [hc]
    exact hO
  | cons e rest ih =>
    intro O hO c hc
    rw [chunksAux] at hc
    by_cases h : chunkSize O + esize e ≤ bs
    · rw [if_pos h] at hc
      refine ih (O ++ [e]) ?_ c hc
      right
      rw [chunkSize_append_single]
      omega
    · rw [if_neg h] at hc
      rcases List.mem_cons.mp hc with rfl | hc2
      · exact hO
      · exact ih [e] (Or.inl rfl) c hc2

/-- Folding the SST builder over a stream of entries evolves the
representation along the chunk partition. -/
theorem addAll_represents (bs : Nat) :
    ∀ (es : List (Key × Val)) (S : List (List (Key × Val))) (O : List (Key × Val))
      (b : SsTableBuilder), Represents bs S O b → (O.headD ([], [])).1 ≠ [] →
      (∀ e ∈ es, e.1 ≠ []) →
      ∃ S2 O2, chunksAux bs O es = S2 ++ [O2] ∧ (O2.headD ([], [])).1 ≠ [] ∧
        Represents bs (S ++ S2) O2 (SsTableBuilder.addAll b es) := by
  intro es
  induction es with
  | nil =>
    intro S O b hr hh _
    exact ⟨[], O, rfl, hh, by simpa [SsTableBuilder.addAll] using hr⟩
  | cons e rest ih =>
    intro S O b hr hh hk
    have haddAll : SsTableBuilder.addAll b (e :: rest) =
        SsTableBuilder.addAll (b.add e.1 e.2) rest := rfl
    by_cases h : chunkSize O + esize e ≤ bs
    · obtain ⟨S2, O2, heq, hh2, hrep⟩ := ih S (O ++ [e]) (b.add e.1 e.2)
        (represents_add_accept bs S O b e hr hh h)
        (by rw [headD_append_left O [e] hr.2.2.2.2.1]; exact hh)
        (fun x hx => hk x (by simp [hx]))
      refine ⟨S2, O2, ?_, hh2, by rw [haddAll]; exact hrep⟩
      rw [chunksAux, if_pos h, heq]
    · obtain ⟨S2, O2, heq, hh2, hrep⟩ := ih (S ++ [O]) [e] (b.add e.1 e.2)
        (represents_add_reject bs S O b e hr h)
        (by simpa using hk e (by simp))
        (fun x hx => hk x (by simp [hx]))
      refine ⟨O :: S2, O2, ?_, hh2, ?_⟩
      · rw [chunksAux, if_neg h, heq]
        rfl
      · rw [haddAll]
        have : S ++ O :: S2 = (S ++ [O]) ++ S2 := by simp
        rw [this]
        exact hrep

/-- The table produced by adding a non-empty stream of entries and building:
its meta sequence, meta offset, file bytes and last key, in terms of the
chunk partition. -/
theorem build_spec (bs id : Nat) (es : List (Key × Val)) (hne : es ≠ [])
    (hkeys : ∀ e ∈ es, e.1 ≠ []) :
    ∃ t, (SsTableBuilder.addAll (SsTableBuilder.new bs) es).build id = some t ∧
      t.block_meta = sealedMeta (chunks bs es) 0 ∧
      t.block_meta_offset = (sealedData (chunks bs es)).length ∧
      t.file = sealedData (chunks bs es) ++ encode_block_meta (sealedMeta (chunks bs es) 0) ++
        u32be ((sealedData (chunks bs es)).length % 4294967296) ∧
      t.last_key = (((chunks bs es).getLastD []).getLastD ([], [])).1 := by
  obtain ⟨e, rest, rfl⟩ := List.exists_cons_of_ne_nil hne
  have hb1 : Represents bs [] [e] ((SsTableBuilder.new bs).add e.1 e.2) := by
    have hproj : (SsTableBuilder.new bs).builder = BlockBuilder.new bs := rfl
    have hadd := bb_add_accept (BlockBuilder.new bs) e.1 e.2 (Or.inl rfl)
    rw [SsTableBuilder.add, hproj, hadd]
    refine ⟨rfl, ?_, rfl, rfl, by simp, rfl, rfl⟩
    rw [blockData_singleton]
    rfl
  obtain ⟨S2, O2, heq, hh2, hrep⟩ := addAll_represents bs rest [] [e]
    ((SsTableBuilder.new bs).add e.1 e.2) hb1
    (by simpa using hkeys e (by simp)) (fun x hx => hkeys x (by simp [hx]))
  have hchunks : chunks bs (e :: rest) = S2 ++ [O2] := heq
  obtain ⟨hbs, hbb, hdata, hmeta, hO2, hfk, hlk⟩ := hrep
  rw [List.nil_append] at hdata hmeta
  have haddAll : SsTableBuilder.addAll (SsTableBuilder.new bs) (e :: rest) =
      SsTableBuilder.addAll ((SsTableBuilder.new bs).add e.1 e.2) rest := rfl
  set B := SsTableBuilder.addAll ((SsTableBuilder.new bs).add e.1 e.2) rest with hB
  have hcond : (!B.builder.is_empty) = true := by
    rw [hbb]
    simp only [BlockBuilder.is_empty]
    have := offsetsOf_ne_nil O2 hO2 0
    simp [List.isEmpty_iff, this]
  have hbuild : B.builder.build.encode = encChunk O2 := by
    rw [hbb]
    rfl
  have hm0 : B.meta ++ [⟨B.data.length, B.first_key, B.last_key⟩] =
      sealedMeta (S2 ++ [O2]) 0 := by
    rw [hmeta, hdata, hfk, hlk, sealedMeta_append_single, Nat.zero_add]
    rfl
  have hd2 : B.data ++ B.builder.build.encode = sealedData (S2 ++ [O2]) := by
    rw [hdata, hbuild, sealedData_append_single]
  have hmne : sealedMeta (S2 ++ [O2]) 0 ≠ [] := by
    intro hcon
    have := congrArg List.length hcon
    rw [sealedMeta_length] at this
    simp at this
  obtain ⟨m0, ms, hm⟩ := List.exists_cons_of_ne_nil hmne
  rw [haddAll, hchunks]
  rw [SsTableBuilder.build]
  rw [if_pos hcond]
  simp only
  rw [hm0, hd2, hm]
  refine ⟨_, rfl, ?_, ?_, ?_, ?_⟩
  · rw [← hm]
  · rfl
  · rw [← hm]
  · rw [← hm]
    rw [sealedMeta_lastKey (S2 ++ [O2]) (by simp) 0 ⟨0, [], []⟩]

/-! ## Reading blocks back from a built table -/

theorem esize_ge (e : Key × Val) : 6 ≤ esize e := by
  simp [esize]

theorem chunkSize_ge (c : List (Key × Val)) : 6 * c.length + 2 ≤ chunkSize c := by
  induction c with
  | nil => simp [chunkSize]
  | cons e rest ih =>
    have := esize_ge e
    simp only [chunkSize, List.map_cons, List.sum_cons, List.length_cons] at ih ⊢
    omega

theorem blockData_take_le (c : List (Key × Val)) (j : Nat) :
    (blockData (c.take j)).length ≤ (blockData c).length := by
  conv_rhs => rw [← List.take_append_drop j c]
  rw [blockData_append, List.length_append]
  omega

theorem mem_offsetsOf (c : List (Key × Val)) :
    ∀ acc o, o ∈ offsetsOf c acc → ∃ j, j < c.length ∧ o = acc + (blockData (c.take j)).length := by
  induction c with
  | nil => intro acc o ho; simp [offsetsOf] at ho
  | cons e rest ih =>
    intro acc o ho
    simp only [offsetsOf, List.mem_cons] at ho
    rcases ho with rfl | ho
    · exact ⟨0, by simp, by simp [blockData_nil]⟩
    · obtain ⟨j, hj, rfl⟩ := ih _ o ho
      refine ⟨j + 1, by simpa using hj, ?_⟩
      simp only [List.take_succ_cons, blockData_cons, List.length_append]
      omega

/-- For a chunk produced under a sane block size, the offsets fit u16 and so
does the entry count, so encode/decode round-trips on its block. -/
theorem decode_encChunk (bs : Nat) (hbs : bs ≤ 65535) (c : List (Key × Val))
    (hc : c ≠ []) (hsize : c.length = 1 ∨ chunkSize c ≤ bs) :
    Block.decode (encChunk c) = some (blockOf c) := by
  have hcount : (blockOf c).offsets.length < 65536 := by
    show (offsetsOf c 0).length < 65536
    rw [offsetsOf_length]
    rcases hsize with h | h
    · omega
    · have := chunkSize_ge c
      omega
  have hoffb : ∀ o ∈ (blockOf c).offsets, o < 65536 := by
    intro o ho
    obtain ⟨j, hj, rfl⟩ := mem_offsetsOf c 0 o ho
    rcases hsize with h | h
    · have hj0 : j = 0 := by omega
      subst hj0
      simp [blockData_nil]
    · have h1 := blockData_take_le c j
      have h2 := sizeEstimate_chunk c
      omega
  exact decode_encode (blockOf c) hcount hoffb

theorem sealedData_length_eq (C : List (List (Key × Val))) :
    (sealedData C).length = sumEnc C C.length := by
  simp only [sealedData, sumEnc, List.length_flatten, List.map_map, List.take_length]
  rfl

theorem slice_sealed (C : List (List (Key × Val))) :
    ∀ (X : List Nat) (i : Nat), i < C.length →
      ((sealedData C ++ X).take (sumEnc C (i + 1))).drop (sumEnc C i) =
        encChunk (C.getD i []) := by
  induction C with
  | nil => intro X i hi; simp at hi
  | cons c rest ih =>
    intro X i hi
    cases i with
    | zero =>
      have h1 : sumEnc (c :: rest) 1 = (encChunk c).length := by
        simp [sumEnc]
      have h0 : sumEnc (c :: rest) 0 = 0 := rfl
      rw [h1, h0, List.drop_zero, sealedData_cons, List.append_assoc, List.take_left]
      rfl
    | succ i =>
      have h1 : sumEnc (c :: rest) (i + 2) = (encChunk c).length + sumEnc rest (i + 1) := by
        simp only [sumEnc, List.take_succ_cons, List.map_cons, List.sum_cons]
      have h2 : sumEnc (c :: rest) (i + 1) = (encChunk c).length + sumEnc rest i := by
        simp only [sumEnc, List.take_succ_cons, List.map_cons, List.sum_cons]
      rw [h1, h2, sealedData_cons, List.append_assoc, List.take_append, List.drop_append]
      exact ih X i (by simpa using hi)

/-- Reading block `i` of a built table returns the block of chunk `i`. -/
theorem read_block_built (t : SsTable) (C : List (List (Key × Val))) (Y : List Nat)
    (hmeta : t.block_meta = sealedMeta C 0)
    (hoff : t.block_meta_offset = (sealedData C).length)
    (hfile : t.file = sealedData C ++ Y)
    (hdec : ∀ c ∈ C, Block.decode (encChunk c) = some (blockOf c)) :
    ∀ i, i < C.length → t.read_block_cached i = some (blockOf (C.getD i [])) := by
  intro i hi
  rw [SsTable.read_block_cached, if_pos (by rw [hmeta, sealedMeta_length]; omega)]
  have hstart : (t.block_meta.getD i ⟨0, [], []⟩).offset = sumEnc C i := by
    rw [hmeta, sealedMeta_getD C 0 i hi]
    simp [metaOfChunk]
  have hstop : (if i + 1 < t.block_meta.length then
      (t.block_meta.getD (i + 1) ⟨0, [], []⟩).offset else t.block_meta_offset) =
      sumEnc C (i + 1) := by
    by_cases h2 : i + 1 < C.length
    · rw [if_pos (by rw [hmeta, sealedMeta_length]; omega), hmeta,
        sealedMeta_getD C 0 (i + 1) h2]
      simp [metaOfChunk]
    · rw [if_neg (by rw [hmeta, sealedMeta_length]; omega), hoff]
      have he : i + 1 = C.length := by omega
      rw [he, sealedData_length_eq]
  simp only
  rw [hstart, hstop, hfile, slice_sealed C Y i hi]
  refine hdec _ ?_
  rw [List.getD_eq_get C [] hi]
  exact List.get_mem C i hi

/-! ## Scanning a built table -/

theorem bnot_isEmpty {α : Type} (l : List α) (h : l ≠ []) : (!l.isEmpty) = true := by
  cases l with
  | nil => exact absurd rfl h
  | cons a as => rfl

theorem bIter_fields (c : List (Key × Val)) (j : Nat) (hj : j < c.length)
    (hwf : ∀ e ∈ c, wfEntry e) :
    (bIter c j).key = (c.getD j ([], [])).1 ∧
      BlockIterator.value (bIter c j) = (c.getD j ([], [])).2 ∧
      (bIter c j).idx = j ∧ (bIter c j).block = blockOf c ∧
      (bIter c j).first_key = [] := by
  have he := seek_to_index_at (BlockIterator.new (blockOf c)) c rfl j hj hwf
  have hb : bIter c j = (BlockIterator.new (blockOf c)).seek_to_index j := rfl
  rw [hb, he]
  refine ⟨rfl, ?_, rfl, rfl, rfl⟩
  show ((blockOf c).data.take _).drop _ = _
  exact value_slice_at c j hj hwf

theorem bIter_next_lt (c : List (Key × Val)) (j : Nat) (hj : j < c.length)
    (hj2 : j + 1 < c.length) (hwf : ∀ e ∈ c, wfEntry e) :
    (bIter c j).next = bIter c (j + 1) := by
  obtain ⟨-, -, hidx, hblock, hfk⟩ := bIter_fields c j hj hwf
  rw [BlockIterator.next, hidx]
  rw [seek_to_index_at (bIter c j) c hblock (j + 1) hj2 hwf]
  have hb : bIter c (j + 1) = (BlockIterator.new (blockOf c)).seek_to_index (j + 1) := rfl
  rw [hb, seek_to_index_at (BlockIterator.new (blockOf c)) c rfl (j + 1) hj2 hwf, hfk]
  rfl

theorem bIter_next_ge (c : List (Key × Val)) (j : Nat) (hj : j < c.length)
    (hj2 : c.length ≤ j + 1) (hwf : ∀ e ∈ c, wfEntry e) :
    ((bIter c j).next).is_valid = false := by
  obtain ⟨-, -, hidx, hblock, -⟩ := bIter_fields c j hj hwf
  rw [BlockIterator.next, hidx]
  rw [seek_to_index_past _ _
    (by rw [hblock]; show (offsetsOf c 0).length ≤ j + 1; rw [offsetsOf_length]; exact hj2)]
  simp [BlockIterator.is_valid]

theorem flatten_drop_succ (C : List (List (Key × Val))) (i : Nat) (hi : i < C.length) :
    (C.drop i).flatten = (C.getD i []) ++ (C.drop (i + 1)).flatten := by
  rw [List.drop_eq_get_cons hi, List.flatten_cons, List.getD_eq_get C [] hi]

theorem getD_mem_of_lt {α : Type} (C : List α) (i : Nat) (hi : i < C.length) (d : α) :
    C.getD i d ∈ C := by
  rw [List.getD_eq_get C d hi]
  exact List.get_mem C i hi

theorem sstScan_step (fuel : Nat) (it : SsTableIterator) (hv : it.is_valid = true)
    (it2 : SsTableIterator) (hn : it.next = some it2) :
    sstScan (fuel + 1) it = (it.key, it.value) :: sstScan fuel it2 := by
  rw [sstScan, if_pos hv, hn]

/-- Scanning from position `(i, j)` of a built table yields the remaining
entries in order. -/
theorem sstScan_at (t : SsTable) (C : List (List (Key × Val)))
    (hmetaLen : t.block_meta.length = C.length)
    (hread : ∀ i, i < C.length → t.read_block_cached i = some (blockOf (C.getD i [])))
    (hCne : ∀ c ∈ C, c ≠ [])
    (hCwf : ∀ c ∈ C, ∀ e ∈ c, wfEntry e) :
    ∀ (n i j : Nat), i < C.length → j < (C.getD i []).length →
      ((C.drop i).flatten.length - j) ≤ n →
      ∀ fuel, n < fuel →
        sstScan fuel ⟨t, bIter (C.getD i []) j, i⟩ =
          (C.getD i []).drop j ++ (C.drop (i + 1)).flatten := by
  intro n
  induction n with
  | zero =>
    intro i j hi hj hrem fuel hfuel
    exfalso
    have hlen := congrArg List.length (flatten_drop_succ C i hi)
    rw [List.length_append] at hlen
    omega
  | succ n ihn =>
    intro i j hi hj hrem fuel hfuel
    obtain ⟨f, rfl⟩ : ∃ f, fuel = f + 1 := ⟨fuel - 1, by omega⟩
    have hcwf : ∀ e ∈ C.getD i [], wfEntry e := hCwf _ (getD_mem_of_lt C i hi [])
    obtain ⟨hkeyF, hvalF, hidxF, hblockF, hfkF⟩ := bIter_fields (C.getD i []) j hj hcwf
    have hkne : ((C.getD i []).getD j ([], [])).1 ≠ [] :=
      (hcwf _ (getD_mem_of_lt _ j hj ([], []))).1
    have hvalid : SsTableIterator.is_valid ⟨t, bIter (C.getD i []) j, i⟩ = true := by
      simp only [SsTableIterator.is_valid, BlockIterator.is_valid, hkeyF]
      rw [bnot_isEmpty _ hkne]
      simp [hmetaLen, hi]
    have hkey : SsTableIterator.key ⟨t, bIter (C.getD i []) j, i⟩ =
        ((C.getD i []).getD j ([], [])).1 := hkeyF
    have hval : SsTableIterator.value ⟨t, bIter (C.getD i []) j, i⟩ =
        ((C.getD i []).getD j ([], [])).2 := hvalF
    have hlen := congrArg List.length (flatten_drop_succ C i hi)
    rw [List.length_append] at hlen
    have hdropj : (C.getD i []).drop j =
        (C.getD i []).getD j ([], []) :: (C.getD i []).drop (j + 1) := by
      rw [List.getD_eq_get _ ([], []) hj]
      exact List.drop_eq_get_cons hj
    by_cases hj2 : j + 1 < (C.getD i []).length
    · have hnext : SsTableIterator.next ⟨t, bIter (C.getD i []) j, i⟩ =
          some ⟨t, bIter (C.getD i []) (j + 1), i⟩ := by
        rw [SsTableIterator.next, if_neg (by rw [hvalid]; simp)]
        simp only
        rw [bIter_next_lt (C.getD i []) j hj hj2 hcwf]
        have hv2 : (bIter (C.getD i []) (j + 1)).is_valid = true := by
          obtain ⟨hk2, -, -, -, -⟩ := bIter_fields (C.getD i []) (j + 1) hj2 hcwf
          simp only [BlockIterator.is_valid, hk2]
          exact bnot_isEmpty _ (hcwf _ (getD_mem_of_lt _ (j + 1) hj2 ([], []))).1
        rw [if_neg (by rw [hv2]; simp)]
      rw [sstScan_step f _ hvalid _ hnext, hkey, hval]
      rw [ihn i (j + 1) hi hj2 (by omega) f (by omega)]
      rw [hdropj]
      rfl
    · have hinv : ((bIter (C.getD i []) j).next).is_valid = false :=
        bIter_next_ge (C.getD i []) j hj (by omega) hcwf
      have hdrop1 : (C.getD i []).drop (j + 1) = [] :=
        List.drop_eq_nil_of_le (by omega)
      by_cases hi2 : i + 1 < C.length
      · have hnext : SsTableIterator.next ⟨t, bIter (C.getD i []) j, i⟩ =
            some ⟨t, bIter (C.getD (i + 1) []) 0, i + 1⟩ := by
          rw [SsTableIterator.next, if_neg (by rw [hvalid]; simp)]
          simp only
          rw [if_pos (by rw [hinv]; rfl), if_pos (by rw [hmetaLen]; omega)]
          rw [hread (i + 1) hi2]
          rfl
        have hc2ne : C.getD (i + 1) [] ≠ [] := hCne _ (getD_mem_of_lt C (i + 1) hi2 [])
        have hj0 : 0 < (C.getD (i + 1) []).length := List.length_pos.mpr hc2ne
        rw [sstScan_step f _ hvalid _ hnext, hkey, hval]
        rw [ihn (i + 1) 0 hi2 hj0 (by omega) f (by omega)]
        rw [hdropj, hdrop1, flatten_drop_succ C (i + 1) hi2]
        simp
      · have hnext : SsTableIterator.next ⟨t, bIter (C.getD i []) j, i⟩ =
            some ⟨t, (bIter (C.getD i []) j).next, i + 1⟩ := by
          rw [SsTableIterator.next, if_neg (by rw [hvalid]; simp)]
          simp only
          rw [if_pos (by rw [hinv]; rfl), if_neg (by rw [hmetaLen]; omega)]
        have hstop : sstScan f ⟨t, (bIter (C.getD i []) j).next, i + 1⟩ = [] := by
          cases f with
          | zero => rfl
          | succ f2 =>
            rw [sstScan, if_neg (by simp only [SsTableIterator.is_valid, hinv]; simp)]
        rw [sstScan_step f _ hvalid _ hnext, hkey, hval]
        rw [hstop, hdropj, hdrop1]
        have hdropC : C.drop (i + 1) = [] := List.drop_eq_nil_of_le (by omega)
        rw [hdropC]
        simp

theorem chunksAux_ne_nil (bs : Nat) :
    ∀ (es : List (Key × Val)) (O : List (Key × Val)), chunksAux bs O es ≠ [] := by
  intro es
  induction es with
  | nil => intro O; simp [chunksAux]
  | cons e rest ih =>
    intro O
    rw [chunksAux]
    by_cases h : chunkSize O + esize e ≤ bs
    · rw [if_pos h]; exact ih (O ++ [e])
    · rw [if_neg h]; simp

theorem chunks_ne_nil (bs : Nat) (es : List (Key × Val)) (hne : es ≠ []) :
    chunks bs es ≠ [] := by
  obtain ⟨e, rest, rfl⟩ := List.exists_cons_of_ne_nil hne
  rw [chunks]
  exact chunksAux_ne_nil bs rest [e]

theorem chunks_flatten (bs : Nat) (es : List (Key × Val)) :
    (chunks bs es).flatten = es := by
  cases es with
  | nil => rfl
  | cons e rest =>
    rw [chunks, chunksAux_flatten]
    rfl

theorem chunks_mem_ne_nil (bs : Nat) (es : List (Key × Val)) :
    ∀ c ∈ chunks bs es, c ≠ [] := by
  cases es with
  | nil => intro c hc; simp [chunks] at hc
  | cons e rest =>
    intro c hc
    exact chunksAux_mem_ne_nil bs rest [e] (by simp) c hc

theorem chunks_mem_size (bs : Nat) (es : List (Key × Val)) :
    ∀ c ∈ chunks bs es, c.length = 1 ∨ chunkSize c ≤ bs := by
  cases es with
  | nil => intro c hc; simp [chunks] at hc
  | cons e rest =>
    intro c hc
    exact chunksAux_mem_size bs rest [e] (Or.inl rfl) c hc

theorem chunks_mem_entry (bs : Nat) (es : List (Key × Val)) (c : List (Key × Val))
    (e : Key × Val) (hc : c ∈ chunks bs es) (he : e ∈ c) : e ∈ es := by
  rw [← chunks_flatten bs es]
  exact List.mem_flatten.mpr ⟨c, hc, he⟩

/-- C1 (counterexample): the full scan does not reproduce every ascending
input.  With the single pair `("", "1")` — the empty key is minimal, so the
sequence is trivially ascending and both lengths fit 16 bits — the built
table's iterator is born invalid (an empty owned key means invalid), so the
scan emits nothing instead of the stored pair. -/
theorem c1_counterexample :
    (((SsTableBuilder.addAll (SsTableBuilder.new 16) [([], [49])]).build 0).bind fun t =>
        (SsTableIterator.create_and_seek_to_first t).map (sstScan 2)) = some [] ∧
      (((SsTableBuilder.addAll (SsTableBuilder.new 16) [([], [49])]).build 0).bind fun t =>
        (SsTableIterator.create_and_seek_to_first t).map (sstScan 2)) ≠
          some [([], [49])] := by
  constructor <;> decide

/-- C1 (amended): for every SST built with `SsTableBuilder` from a sequence
of strictly ascending non-empty keys whose key/value lengths fit their
16-bit length fields, under a block size within the 16-bit offset range, the
full scan — `create_and_seek_to_first` then repeated `next()` while
`is_valid()` — emits exactly the input pairs in order. -/
theorem c1_full_scan (bs id : Nat) (es : List (Key × Val)) (hne : es ≠ [])
    (hsorted : List.Chain' (fun a b => keyLt a.1 b.1 = true) es)
    (hwf : ∀ e ∈ es, wfEntry e) (hbs : bs ≤ 65535) :
    ∃ t it0, (SsTableBuilder.addAll (SsTableBuilder.new bs) es).build id = some t ∧
      SsTableIterator.create_and_seek_to_first t = some it0 ∧
      ∀ fuel, es.length < fuel → sstScan fuel it0 = es := by
  obtain ⟨t, hbuild, hmeta, hoff, hfile, hlast⟩ :=
    build_spec bs id es hne (fun e he => (hwf e he).1)
  have hCne : ∀ c ∈ chunks bs es, c ≠ [] := chunks_mem_ne_nil bs es
  have hCwf : ∀ c ∈ chunks bs es, ∀ e ∈ c, wfEntry e :=
    fun c hc e he => hwf e (chunks_mem_entry bs es c e hc he)
  have hdec : ∀ c ∈ chunks bs es, Block.decode (encChunk c) = some (blockOf c) :=
    fun c hc => decode_encChunk bs hbs c (hCne c hc) (chunks_mem_size bs es c hc)
  have hmetaLen : t.block_meta.length = (chunks bs es).length := by
    rw [hmeta, sealedMeta_length]
  have hfile2 : t.file = sealedData (chunks bs es) ++
      (encode_block_meta (sealedMeta (chunks bs es) 0) ++
        u32be ((sealedData (chunks bs es)).length % 4294967296)) := by
    rw [hfile, List.append_assoc]
  have hread := read_block_built t (chunks bs es) _ hmeta hoff hfile2 hdec
  have h0 : 0 < (chunks bs es).length := List.length_pos.mpr (chunks_ne_nil bs es hne)
  have hc0ne : (chunks bs es).getD 0 [] ≠ [] := hCne _ (getD_mem_of_lt _ 0 h0 [])
  have hj0 : 0 < ((chunks bs es).getD 0 []).length := List.length_pos.mpr hc0ne
  have hit0 : SsTableIterator.create_and_seek_to_first t =
      some ⟨t, bIter ((chunks bs es).getD 0 []) 0, 0⟩ := by
    rw [SsTableIterator.create_and_seek_to_first, hread 0 h0]
    rfl
  refine ⟨t, _, hbuild, hit0, ?_⟩
  intro fuel hfuel
  rw [sstScan_at t (chunks bs es) hmetaLen hread hCne hCwf es.length 0 0 h0 hj0
    (by rw [List.drop_zero, chunks_flatten]; omega) fuel hfuel]
  rw [List.drop_zero, ← flatten_drop_succ (chunks bs es) 0 h0, List.drop_zero,
    chunks_flatten]

/-- C1 witness: the amended theorem applied to a concrete two-entry input. -/
theorem c1_witness :
    ([([97], [49]), ([98], [50])] : List (Key × Val)) ≠ [] ∧
      List.Chain' (fun a b => keyLt a.1 b.1 = true) [([97], [49]), ([98], [50])] ∧
      (∀ e ∈ ([([97], [49]), ([98], [50])] : List (Key × Val)), wfEntry e) ∧
      (16 : Nat) ≤ 65535 ∧
      ∃ t it0, (SsTableBuilder.addAll (SsTableBuilder.new 16)
          [([97], [49]), ([98], [50])]).build 0 = some t ∧
        SsTableIterator.create_and_seek_to_first t = some it0 ∧
        ∀ fuel, ([([97], [49]), ([98], [50])] : List (Key × Val)).length < fuel →
          sstScan fuel it0 = [([97], [49]), ([98], [50])] :=
  ⟨by decide, List.Chain.cons (by decide) List.Chain.nil,
    by intro e he; simp only [List.mem_cons, List.mem_singleton] at he;
       rcases he with rfl | rfl | h <;> first
         | exact ⟨by decide, by decide, by decide⟩
         | simp at h,
    by decide,
    c1_full_scan 16 0 [([97], [49]), ([98], [50])] (by decide)
      (List.Chain.cons (by decide) List.Chain.nil)
      (by intro e he; simp only [List.mem_cons, List.mem_singleton] at he;
          rcases he with rfl | rfl | h <;> first
            | exact ⟨by decide, by decide, by decide⟩
            | simp at h)
      (by decide)⟩

/-! ## Sortedness and seek lemmas -/

theorem sorted_lt_of_last_lt (l : List (Key × Val))
    (hs : List.Chain' (fun a b => keyLt a.1 b.1 = true) l) (q : Key)
    (hlast : keyLt (l.getLastD ([], [])).1 q = true) :
    ∀ e ∈ l, keyLt e.1 q = true := by
  induction l with
  | nil => intro e he; simp at he
  | cons a rest ih =>
    intro e he
    cases hr : rest with
    | nil =>
      subst hr
      simp only [List.mem_singleton] at he
      subst he
      exact hlast
    | cons b rest2 =>
      subst hr
      have hd := List.chain'_cons.mp hs
      have hlast2 : keyLt ((b :: rest2).getLastD ([], [])).1 q = true := by
        rw [List.getLastD_cons] at hlast
        rw [getLastD_irrel _ (by simp) ([], []) a]
        exact hlast
      rcases List.mem_cons.mp he with rfl | he2
      · have hb : keyLt b.1 q = true :=
          ih hd.2 hlast2 b (by simp)
        exact keyLt_trans hd.1 hb
      · exact ih hd.2 hlast2 e he2

theorem getLastD_mem {α : Type} (l : List α) (hne : l ≠ []) (d : α) : l.getLastD d ∈ l := by
  induction l with
  | nil => exact absurd rfl hne
  | cons a rest ih =>
    cases hr : rest with
    | nil => simp
    | cons b rest2 =>
      subst hr
      rw [List.getLastD_cons]
      right
      rw [getLastD_irrel _ (by simp) a d]
      exact ih (by simp) 

theorem flatten_ne_nil {α : Type} (L : List (List α)) (hne : L ≠ [])
    (hc : ∀ c ∈ L, c ≠ []) : L.flatten ≠ [] := by
  obtain ⟨c, rest, rfl⟩ := List.exists_cons_of_ne_nil hne
  rw [List.flatten_cons]
  intro hcon
  rcases List.append_eq_nil.mp hcon with ⟨h1, -⟩
  exact hc c (by simp) h1

theorem getLastD_append_right {α : Type} (A : List α) :
    ∀ (X : List α), X ≠ [] → ∀ d, (A ++ X).getLastD d = X.getLastD d := by
  induction A with
  | nil => intro X hX d; rfl
  | cons a A2 ih =>
    intro X hX d
    rw [List.cons_append, List.getLastD_cons, ih X hX a, getLastD_irrel X hX a d]

theorem flatten_getLastD {α : Type} (L : List (List α)) (hne : L ≠ [])
    (hc : ∀ c ∈ L, c ≠ []) (d : α) :
    L.flatten.getLastD d = (L.getLastD []).getLastD d := by
  induction L with
  | nil => exact absurd rfl hne
  | cons c rest ih =>
    cases hr : rest with
    | nil =>
      subst hr
      simp only [List.flatten_cons, List.flatten_nil, List.append_nil]
      rfl
    | cons c2 rest2 =>
      subst hr
      rw [List.flatten_cons, List.getLastD_cons]
      have hne2 : (c2 :: rest2) ≠ [] := by simp
      have hfl2 : (c2 :: rest2).flatten ≠ [] :=
        flatten_ne_nil _ hne2 (fun x hx => hc x (by simp [hx]))
      rw [getLastD_append_right c _ hfl2 d]
      rw [ih hne2 (fun x hx => hc x (by simp [hx]))]
      rw [getLastD_irrel _ hne2 c []]

theorem findIdx_take_false {α : Type} (L : List α) (p : α → Bool) :
    ∀ x ∈ L.take (L.findIdx p), p x = false := by
  induction L with
  | nil => intro x hx; simp at hx
  | cons a l ih =>
    intro x hx
    rw [List.findIdx_cons] at hx
    cases hp : p a with
    | true => rw [hp] at hx; simp at hx
    | false =>
      rw [hp] at hx
      simp only [cond_false, List.take_succ_cons, List.mem_cons] at hx
      rcases hx with rfl | hx2
      · exact hp
      · exact ih x hx2

theorem find?_append_false {α : Type} (A B : List α) (p : α → Bool)
    (h : ∀ x ∈ A, p x = false) : (A ++ B).find? p = B.find? p := by
  induction A with
  | nil => rfl
  | cons a as ih =>
    rw [List.cons_append, List.find?_cons_of_neg _ (by simp [h a (by simp)])]
    exact ih (fun x hx => h x (by simp [hx]))

theorem findIdx_congr {α β : Type} :
    ∀ (l1 : List α) (l2 : List β) (p1 : α → Bool) (p2 : β → Bool),
      l1.length = l2.length →
      (∀ j (h1 : j < l1.length) (h2 : j < l2.length),
        p1 (l1.get ⟨j, h1⟩) = p2 (l2.get ⟨j, h2⟩)) →
      l1.findIdx p1 = l2.findIdx p2 := by
  intro l1
  induction l1 with
  | nil =>
    intro l2 p1 p2 hlen _
    cases l2 with
    | nil => rfl
    | cons b bs => simp at hlen
  | cons a as ih =>
    intro l2 p1 p2 hlen hpt
    cases l2 with
    | nil => simp at hlen
    | cons b bs =>
      rw [List.findIdx_cons, List.findIdx_cons]
      have h0 := hpt 0 (by simp) (by simp)
      simp only [List.get] at h0
      rw [h0]
      cases p2 b with
      | true => rfl
      | false =>
        simp only [cond_false]
        rw [ih bs p1 p2 (by simpa using hlen)
          (fun j h1 h2 => hpt (j + 1) (by simpa using h1) (by simpa using h2))]

theorem findIdx_sealedMeta (q : Key) :
    ∀ (C : List (List (Key × Val))) (off : Nat),
      (sealedMeta C off).findIdx (fun m => !keyLt m.last_key q) =
        C.findIdx (fun c => !keyLt (c.getLastD ([], [])).1 q) := by
  intro C
  induction C with
  | nil => intro off; rfl
  | cons c rest ih =>
    intro off
    show (metaOfChunk off c :: sealedMeta rest (off + (encChunk c).length)).findIdx _ = _
    rw [List.findIdx_cons, List.findIdx_cons]
    have : (metaOfChunk off c).last_key = (c.getLastD ([], [])).1 := rfl
    rw [this, ih]

theorem chain'_flatten_mem {α : Type} (R : α → α → Prop) :
    ∀ (L : List (List α)), List.Chain' R L.flatten → ∀ c ∈ L, List.Chain' R c := by
  intro L
  induction L with
  | nil => intro _ c hc; simp at hc
  | cons a rest ih =>
    intro h c hc
    rw [List.flatten_cons, List.chain'_append] at h
    rcases List.mem_cons.mp hc with rfl | hc2
    · exact h.1
    · exact ih h.2.1 c hc2

theorem sorted_le_last (l : List (Key × Val))
    (hs : List.Chain' (fun a b => keyLt a.1 b.1 = true) l) :
    ∀ e ∈ l, e = l.getLastD ([], []) ∨ keyLt e.1 ((l.getLastD ([], [])).1) = true := by
  induction l with
  | nil => intro e he; simp at he
  | cons a rest ih =>
    intro e he
    cases hr : rest with
    | nil =>
      subst hr
      simp only [List.mem_singleton] at he
      subst he
      left
      rfl
    | cons b rest2 =>
      subst hr
      have hd := List.chain'_cons.mp hs
      have hlast : (a :: b :: rest2).getLastD ([], []) = (b :: rest2).getLastD ([], []) := by
        rw [List.getLastD_cons, getLastD_irrel _ (by simp) a ([], [])]
      rcases List.mem_cons.mp he with rfl | he2
      · right
        rw [hlast]
        rcases ih hd.2 b (by simp) with hb | hb
        · rw [← hb]
          exact hd.1
        · exact keyLt_trans hd.1 hb
      · rw [hlast]
        exact ih hd.2 e he2

theorem parse_key_at (c : List (Key × Val)) (j : Nat) (hj : j < c.length)
    (hwf : ∀ e ∈ c, wfEntry e) :
    ((blockData c).drop ((blockData (c.take j)).length + 2)).take
      (readU16 (blockData c) (blockData (c.take j)).length) = (c.getD j ([], [])).1 := by
  obtain ⟨hk1, hk2, hv2⟩ := hwf _ (getD_mem_of_lt c j hj ([], []))
  have hpe := entry_parse (blockData (c.take j)) (blockData (c.drop (j + 1)))
    (c.getD j ([], [])).1 (c.getD j ([], [])).2 hk2 hv2
  rw [← blockOf_decompose c j hj] at hpe
  rw [hpe.1]
  exact hpe.2.1

/-- The in-block seek lands at the partition point of the stored entries. -/
theorem blockSeek_eq (c : List (Key × Val)) (hwf : ∀ e ∈ c, wfEntry e) (q : Key)
    (it : BlockIterator) (hb : it.block = blockOf c) :
    it.seek_to_key q = it.seek_to_index (c.findIdx (fun e => !keyLt e.1 q)) := by
  rw [BlockIterator.seek_to_key]
  simp only [hb]
  congr 1
  show (offsetsOf c 0).findIdx _ = _
  apply findIdx_congr
  · exact offsetsOf_length c 0
  · intro j h1 h2
    have hjc : j < c.length := by
      rw [offsetsOf_length] at h1
      exact h1
    have hget : (offsetsOf c 0).get ⟨j, h1⟩ = (blockData (c.take j)).length := by
      rw [← List.getD_eq_get _ 0 h1, offsetsOf_getD c 0 j hjc, Nat.zero_add]
    rw [hget]
    show (!keyLt (((blockOf c).data.drop _).take _) q) = _
    have hdata : (blockOf c).data = blockData c := rfl
    rw [hdata, parse_key_at c j hjc hwf, List.getD_eq_get c ([], []) hjc]

theorem headD_mem {α : Type} (l : List α) (hne : l ≠ []) (d : α) : l.headD d ∈ l := by
  cases l with
  | nil => exact absurd rfl hne
  | cons a rest => simp

theorem take_succ_getLastD {α : Type} (L : List α) (i : Nat) (hi : i < L.length) (d : α) :
    (L.take (i + 1)).getLastD d = L.getD i d := by
  rw [List.take_succ]
  have : L[i]? = some (L.get ⟨i, hi⟩) := by
    rw [List.getElem?_eq_getElem hi]
    rfl
  rw [this]
  show (L.take i ++ [L.get ⟨i, hi⟩]).getLastD d = _
  rw [List.getLastD_concat, List.getD_eq_get L d hi]


theorem findIdx_getD_true {α : Type} (L : List α) (p : α → Bool) (d : α)
    (h : L.findIdx p < L.length) : p (L.getD (L.findIdx p) d) = true := by
  rw [List.getD_eq_get _ d h]
  exact List.findIdx_getElem (w := h)

theorem seek_to_key_past (it : SsTableIterator) (q : Key)
    (hge : it.table.block_meta.length ≤ it.table.find_block_idx q) :
    it.seek_to_key q = some { it with blk_idx := it.table.find_block_idx q } := by
  simp only [SsTableIterator.seek_to_key]
  rw [if_pos hge]

theorem seek_to_key_found (it : SsTableIterator) (q : Key) (b : Block)
    (hlt : it.table.find_block_idx q < it.table.block_meta.length)
    (hrd : it.table.read_block_cached (it.table.find_block_idx q) = some b)
    (hv : (BlockIterator.create_and_seek_to_key b q).is_valid = true) :
    it.seek_to_key q = some { it with
      blk_iter := BlockIterator.create_and_seek_to_key b q,
      blk_idx := it.table.find_block_idx q } := by
  have hnge : ¬ it.table.find_block_idx q ≥ it.table.block_meta.length := Nat.not_le.mpr hlt
  simp only [SsTableIterator.seek_to_key]
  rw [if_neg hnge, hrd]
  simp only [hv, Bool.not_true, Bool.false_eq_true, if_false]

/-- C3 (counterexample): on the table built from the single pair `("", "1")`
(ascending, lengths fit 16 bits), seeking the empty key — which is not
greater than the table's last key — leaves the iterator invalid instead of
positioning it at the smallest stored key `≥ q`. -/
theorem c3_counterexample :
    (((SsTableBuilder.addAll (SsTableBuilder.new 16) [([], [49])]).build 0).bind fun t =>
        (SsTableIterator.create_and_seek_to_first t).bind fun it =>
          (it.seek_to_key []).map fun it2 => (keyLt t.last_key [], it2.is_valid)) =
      some (false, false) := by
  decide

/-- C3 (amended): for an SST built from strictly ascending non-empty keys
(entry lengths within 16 bits, block size at most `65535`) and any target
`q`, `seek_to_key q` leaves the iterator invalid when `q` is greater than
the table's last key, and otherwise lands exactly on the first stored
entry whose key is `≥ q`; in particular, a target falling strictly between
`meta[i].last_key` and `meta[i+1].first_key` lands on
`meta[i+1].first_key`. -/
theorem c3_seek (bs id : Nat) (es : List (Key × Val)) (hne : es ≠ [])
    (hsorted : List.Chain' (fun a b => keyLt a.1 b.1 = true) es)
    (hwf : ∀ e ∈ es, wfEntry e) (hbs : bs ≤ 65535) :
    ∃ t, (SsTableBuilder.addAll (SsTableBuilder.new bs) es).build id = some t ∧
      ∀ (q : Key) (it : SsTableIterator), it.table = t →
        (keyLt t.last_key q = true →
          ∃ it2, it.seek_to_key q = some it2 ∧ it2.is_valid = false) ∧
        (keyLt t.last_key q = false →
          ∃ it2 e, it.seek_to_key q = some it2 ∧
            es.find? (fun x => !keyLt x.1 q) = some e ∧
            it2.is_valid = true ∧ it2.key = e.1 ∧ it2.value = e.2) ∧
        (∀ i, i + 1 < t.block_meta.length →
          keyLt (t.block_meta.getD i ⟨0, [], []⟩).last_key q = true →
          keyLt q (t.block_meta.getD (i + 1) ⟨0, [], []⟩).first_key = true →
          ∃ it2, it.seek_to_key q = some it2 ∧ it2.is_valid = true ∧
            it2.key = (t.block_meta.getD (i + 1) ⟨0, [], []⟩).first_key) := by
  obtain ⟨t, hbuild, hmeta, hoff, hfile, hlast⟩ :=
    build_spec bs id es hne (fun e he => (hwf e he).1)
  have hCne : ∀ c ∈ chunks bs es, c ≠ [] := chunks_mem_ne_nil bs es
  have hCwf : ∀ c ∈ chunks bs es, ∀ e ∈ c, wfEntry e :=
    fun c hc e he => hwf e (chunks_mem_entry bs es c e hc he)
  have hdec : ∀ c ∈ chunks bs es, Block.decode (encChunk c) = some (blockOf c) :=
    fun c hc => decode_encChunk bs hbs c (hCne c hc) (chunks_mem_size bs es c hc)
  have hmetaLen : t.block_meta.length = (chunks bs es).length := by
    rw [hmeta, sealedMeta_length]
  have hfile2 : t.file = sealedData (chunks bs es) ++
      (encode_block_meta (sealedMeta (chunks bs es) 0) ++
        u32be ((sealedData (chunks bs es)).length % 4294967296)) := by
    rw [hfile, List.append_assoc]
  have hread := read_block_built t (chunks bs es) _ hmeta hoff hfile2 hdec
  have hflat : (chunks bs es).flatten = es := chunks_flatten bs es
  have hCnil : chunks bs es ≠ [] := chunks_ne_nil bs es hne
  have hlast2 : t.last_key = (es.getLastD ([], [])).1 := by
    rw [hlast, ← flatten_getLastD (chunks bs es) hCnil hCne ([], []), hflat]
  refine ⟨t, hbuild, ?_⟩
  intro q it hit
  have hfind : it.table.find_block_idx q =
      (chunks bs es).findIdx (fun c => !keyLt (c.getLastD ([], [])).1 q) := by
    rw [hit, SsTable.find_block_idx, hmeta, findIdx_sealedMeta]
  have hpart2 : keyLt t.last_key q = false →
      ∃ it2 e, it.seek_to_key q = some it2 ∧
        es.find? (fun x => !keyLt x.1 q) = some e ∧
        it2.is_valid = true ∧ it2.key = e.1 ∧ it2.value = e.2 := by
    intro hq
    have hlastmem : (chunks bs es).getLastD [] ∈ chunks bs es := getLastD_mem _ hCnil []
    have hpcLast : (!keyLt (((chunks bs es).getLastD []).getLastD ([], [])).1 q) = true := by
      rw [← hlast, hq]
      rfl
    have histar : (chunks bs es).findIdx (fun c => !keyLt (c.getLastD ([], [])).1 q) <
        (chunks bs es).length :=
      List.findIdx_lt_length_of_exists ⟨_, hlastmem, hpcLast⟩
    have hcmem : (chunks bs es).getD
        ((chunks bs es).findIdx (fun c => !keyLt (c.getLastD ([], [])).1 q)) [] ∈
        chunks bs es := getD_mem_of_lt _ _ histar []
    set istar := (chunks bs es).findIdx (fun c => !keyLt (c.getLastD ([], [])).1 q)
      with histardef
    set cstar := (chunks bs es).getD istar [] with hcstardef
    have hcne : cstar ≠ [] := hCne _ hcmem
    have hcwfstar : ∀ e ∈ cstar, wfEntry e := hCwf _ hcmem
    have hpcstar : (!keyLt (cstar.getLastD ([], [])).1 q) = true := by
      have hg := findIdx_getD_true (chunks bs es)
        (fun c => !keyLt (c.getLastD ([], [])).1 q) []
        (by rw [← histardef]; exact histar)
      rw [← histardef, ← hcstardef] at hg
      exact hg
    have hjstar : cstar.findIdx (fun e => !keyLt e.1 q) < cstar.length :=
      List.findIdx_lt_length_of_exists ⟨_, getLastD_mem _ hcne ([], []), hpcstar⟩
    set jstar := cstar.findIdx (fun e => !keyLt e.1 q) with hjstardef
    have hbi : BlockIterator.create_and_seek_to_key (blockOf cstar) q = bIter cstar jstar := by
      rw [BlockIterator.create_and_seek_to_key, blockSeek_eq cstar hcwfstar q _ rfl,
        ← hjstardef]
      rfl
    obtain ⟨hkeyF, hvalF, -, -, -⟩ := bIter_fields cstar jstar hjstar hcwfstar
    have hbvalid : (bIter cstar jstar).is_valid = true := by
      simp only [BlockIterator.is_valid, hkeyF]
      exact bnot_isEmpty _ (hcwfstar _ (getD_mem_of_lt _ _ hjstar _)).1
    have hlt : it.table.find_block_idx q < it.table.block_meta.length := by
      rw [hfind, hit, hmetaLen]
      exact histar
    have hrd2 : it.table.read_block_cached (it.table.find_block_idx q) = some (blockOf cstar) := by
      rw [hfind, hit]
      exact hread istar histar
    have hv2 : (BlockIterator.create_and_seek_to_key (blockOf cstar) q).is_valid = true := by
      rw [hbi]
      exact hbvalid
    have hseek := seek_to_key_found it q (blockOf cstar) hlt hrd2 hv2
    rw [hbi, hfind] at hseek
    have hfound : es.find? (fun x => !keyLt x.1 q) = some (cstar.getD jstar ([], [])) := by
      have hdecomp : es = ((chunks bs es).take istar).flatten ++
          (cstar ++ ((chunks bs es).drop (istar + 1)).flatten) := by
        conv_lhs => rw [← hflat, ← List.take_append_drop istar (chunks bs es)]
        rw [List.flatten_append, flatten_drop_succ (chunks bs es) istar histar, ← hcstardef]
      rw [hdecomp]
      rw [find?_append_false]
      · have hpj : (fun e => !keyLt e.1 q) (cstar.getD jstar ([], [])) = true := by
          have hg := findIdx_getD_true cstar (fun e => !keyLt e.1 q) ([], [])
            (by rw [← hjstardef]; exact hjstar)
          rw [← hjstardef] at hg
          exact hg
        have hc_decomp : cstar = cstar.take jstar ++
            (cstar.getD jstar ([], []) :: cstar.drop (jstar + 1)) := by
          conv_lhs => rw [← List.take_append_drop jstar cstar]
          rw [List.drop_eq_get_cons hjstar, List.getD_eq_get _ ([], []) hjstar]
        conv_lhs => rw [hc_decomp]
        rw [List.append_assoc]
        rw [find?_append_false _ _ _ (by
          intro x hx
          rw [hjstardef] at hx
          exact findIdx_take_false cstar _ x hx)]
        rw [List.cons_append]
        exact List.find?_cons_of_pos _ hpj
      · intro x hx
        obtain ⟨c, hcmem2, hxc⟩ := List.mem_flatten.mp hx
        have hpc_false : (!keyLt (c.getLastD ([], [])).1 q) = false := by
          rw [histardef] at hcmem2
          exact findIdx_take_false (chunks bs es) _ c hcmem2
        have hlastlt : keyLt (c.getLastD ([], [])).1 q = true := by
          simpa using hpc_false
        have hcC : c ∈ chunks bs es := List.mem_of_mem_take hcmem2
        have hsortedc := chain'_flatten_mem _ (chunks bs es)
          (by rw [hflat]; exact hsorted) c hcC
        have hx2 := sorted_lt_of_last_lt c hsortedc q hlastlt x hxc
        simp [hx2]
    refine ⟨_, _, hseek, hfound, ?_, hkeyF, hvalF⟩
    simp only [SsTableIterator.is_valid, hbvalid, Bool.true_and]
    rw [hit, hmetaLen]
    simp only [decide_eq_true_eq]
    exact histar
  refine ⟨?_, hpart2, ?_⟩
  · intro hq
    have hallpc : ∀ c ∈ chunks bs es,
        (fun c => !keyLt (c.getLastD ([], [])).1 q) c = false := by
      intro c hc
      have hmem : c.getLastD ([], []) ∈ es := by
        rw [← hflat]
        exact List.mem_flatten.mpr ⟨c, hc, getLastD_mem c (hCne c hc) _⟩
      have hk : keyLt (c.getLastD ([], [])).1 q = true := by
        rcases sorted_le_last es hsorted _ hmem with he | he
        · rw [he, ← hlast2]
          exact hq
        · exact keyLt_trans he (by rw [← hlast2]; exact hq)
      show (!keyLt (c.getLastD ([], [])).1 q) = false
      rw [hk]
      rfl
    have hfN : it.table.find_block_idx q = (chunks bs es).length := by
      rw [hfind]
      exact List.findIdx_eq_length.mpr hallpc
    refine ⟨{ it with blk_idx := it.table.find_block_idx q }, seek_to_key_past it q ?_, ?_⟩
    · rw [hfN, hit, hmetaLen]
    · simp only [SsTableIterator.is_valid]
      rw [hfN, hit, hmetaLen]
      simp
  · intro i hi1 hlow hhigh
    have hiC : i + 1 < (chunks bs es).length := by
      rw [← hmetaLen]
      exact hi1
    have hmi : t.block_meta.getD i ⟨0, [], []⟩ =
        metaOfChunk (0 + sumEnc (chunks bs es) i) ((chunks bs es).getD i []) := by
      rw [hmeta]
      exact sealedMeta_getD (chunks bs es) 0 i (by omega)
    have hmi1 : t.block_meta.getD (i + 1) ⟨0, [], []⟩ =
        metaOfChunk (0 + sumEnc (chunks bs es) (i + 1)) ((chunks bs es).getD (i + 1) []) := by
      rw [hmeta]
      exact sealedMeta_getD (chunks bs es) 0 (i + 1) hiC
    rw [hmi] at hlow
    rw [hmi1] at hhigh
    have hlow2 : keyLt (((chunks bs es).getD i []).getLastD ([], [])).1 q = true := hlow
    have hhigh2 : keyLt q ((((chunks bs es).getD (i + 1) []).headD ([], [])).1) = true := hhigh
    have hc1mem : (chunks bs es).getD (i + 1) [] ∈ chunks bs es := getD_mem_of_lt _ _ hiC []
    have hc1ne : (chunks bs es).getD (i + 1) [] ≠ [] := hCne _ hc1mem
    have hheadmem : ((chunks bs es).getD (i + 1) []).headD ([], []) ∈ es := by
      have hm := List.mem_flatten.mpr ⟨_, hc1mem, headD_mem _ hc1ne ([], [])⟩
      rw [hflat] at hm
      exact hm
    have hf1q : keyLt (((chunks bs es).getD (i + 1) []).headD ([], [])).1 q = false :=
      keyLt_asymm hhigh2
    have hqfalse : keyLt t.last_key q = false := by
      cases hcontra : keyLt t.last_key q with
      | false => rfl
      | true =>
        have hltq : keyLt (((chunks bs es).getD (i + 1) []).headD ([], [])).1 q = true := by
          rcases sorted_le_last es hsorted _ hheadmem with he | he
          · rw [he, ← hlast2]
            exact hcontra
          · exact keyLt_trans he (by rw [← hlast2]; exact hcontra)
        rw [hltq] at hf1q
        exact Bool.noConfusion hf1q
    obtain ⟨it2, e, hseek, hfoundE, hvalid, hkey, hval⟩ := hpart2 hqfalse
    have hPne : (chunks bs es).take (i + 1) ≠ [] := by
      have hlen : ((chunks bs es).take (i + 1)).length = i + 1 := by
        rw [List.length_take]
        omega
      intro hcon
      rw [hcon] at hlen
      simp at hlen
    have hsplit : es = (((chunks bs es).take (i + 1)).flatten) ++
        (((chunks bs es).drop (i + 1)).flatten) := by
      conv_lhs => rw [← hflat, ← List.take_append_drop (i + 1) (chunks bs es)]
      rw [List.flatten_append]
    have hPsorted : List.Chain' (fun a b => keyLt a.1 b.1 = true)
        (((chunks bs es).take (i + 1)).flatten) := by
      have hsp := hsplit ▸ hsorted
      exact (List.chain'_append.mp hsp).1
    have hPlast : keyLt ((((chunks bs es).take (i + 1)).flatten).getLastD ([], [])).1 q = true := by
      rw [flatten_getLastD _ hPne (fun c hc => hCne c (List.mem_of_mem_take hc)) ([], [])]
      rw [take_succ_getLastD (chunks bs es) i (by omega) []]
      exact hlow2
    have hPfalse : ∀ x ∈ (((chunks bs es).take (i + 1)).flatten),
        (fun x => !keyLt x.1 q) x = false := by
      intro x hx
      have hx2 := sorted_lt_of_last_lt _ hPsorted q hPlast x hx
      simp [hx2]
    obtain ⟨e0, crest, hc1eq⟩ := List.exists_cons_of_ne_nil hc1ne
    have hdropflat : (((chunks bs es).drop (i + 1)).flatten) =
        e0 :: (crest ++ (((chunks bs es).drop (i + 2)).flatten)) := by
      rw [flatten_drop_succ (chunks bs es) (i + 1) hiC, hc1eq, List.cons_append]
    have hpe0 : (fun x => !keyLt x.1 q) e0 = true := by
      have he0head : e0 = ((chunks bs es).getD (i + 1) []).headD ([], []) := by
        rw [hc1eq]
        rfl
      rw [he0head]
      show (!keyLt (((chunks bs es).getD (i + 1) []).headD ([], [])).1 q) = true
      rw [hf1q]
      rfl
    have hfindes : es.find? (fun x => !keyLt x.1 q) = some e0 := by
      rw [hsplit, find?_append_false _ _ _ hPfalse, hdropflat]
      exact List.find?_cons_of_pos _ hpe0
    have he0 : e = e0 := by
      rw [hfindes] at hfoundE
      exact (Option.some.inj hfoundE).symm
    refine ⟨it2, hseek, hvalid, ?_⟩
    rw [hkey, he0, hmi1]
    show e0.1 = (((chunks bs es).getD (i + 1) []).headD ([], [])).1
    rw [hc1eq]
    rfl

/-- C3 witness: the amended seek theorem applied to a concrete two-entry
input. -/
theorem c3_witness :
    ([([97], [49]), ([98], [50])] : List (Key × Val)) ≠ [] ∧
      List.Chain' (fun a b => keyLt a.1 b.1 = true) [([97], [49]), ([98], [50])] ∧
      (∀ e ∈ ([([97], [49]), ([98], [50])] : List (Key × Val)), wfEntry e) ∧
      (16 : Nat) ≤ 65535 ∧
      ∃ t, (SsTableBuilder.addAll (SsTableBuilder.new 16)
          [([97], [49]), ([98], [50])]).build 0 = some t ∧
        ∀ (q : Key) (it : SsTableIterator), it.table = t →
          (keyLt t.last_key q = true →
            ∃ it2, it.seek_to_key q = some it2 ∧ it2.is_valid = false) ∧
          (keyLt t.last_key q = false →
            ∃ it2 e, it.seek_to_key q = some it2 ∧
              List.find? (fun x => !keyLt x.1 q) [([97], [49]), ([98], [50])] = some e ∧
              it2.is_valid = true ∧ it2.key = e.1 ∧ it2.value = e.2) ∧
          (∀ i, i + 1 < t.block_meta.length →
            keyLt (t.block_meta.getD i ⟨0, [], []⟩).last_key q = true →
            keyLt q (t.block_meta.getD (i + 1) ⟨0, [], []⟩).first_key = true →
            ∃ it2, it.seek_to_key q = some it2 ∧ it2.is_valid = true ∧
              it2.key = (t.block_meta.getD (i + 1) ⟨0, [], []⟩).first_key) :=
  ⟨by decide, List.Chain.cons (by decide) List.Chain.nil,
    by intro e he; simp only [List.mem_cons, List.mem_singleton] at he;
       rcases he with rfl | rfl | h <;> first
         | exact ⟨by decide, by decide, by decide⟩
         | simp at h,
    by decide,
    c3_seek 16 0 [([97], [49]), ([98], [50])] (by decide)
      (List.Chain.cons (by decide) List.Chain.nil)
      (by intro e he; simp only [List.mem_cons, List.mem_singleton] at he;
          rcases he with rfl | rfl | h <;> first
            | exact ⟨by decide, by decide, by decide⟩
            | simp at h)
      (by decide)⟩

/-- C6 (counterexample): on the table built from `("a", "1")`, seeking key
`"b"` (greater than the table's last key) with `create_and_seek_to_key`
does not return an invalid iterator: the block at the past-the-end index
is read before the bounds check, and that out-of-range read fails the
whole call. -/
theorem c6_counterexample :
    (((SsTableBuilder.addAll (SsTableBuilder.new 16) [([97], [49])]).build 0).map
        fun t => (keyLt t.last_key [98],
          SsTableIterator.create_and_seek_to_key t [98])) =
      some (true, none) := by
  decide

/-- C6 (amended): for every SST built from strictly ascending non-empty
keys and every key `q` greater than the table's last key,
`find_block_idx` does return the past-the-end index `meta.len()`, but
`create_and_seek_to_key` reads the block at that index before the
past-the-end check, so the out-of-range read makes the call fail (`none`)
instead of returning an invalid iterator. -/
theorem c6_read_before_check (bs id : Nat) (es : List (Key × Val)) (hne : es ≠ [])
    (hsorted : List.Chain' (fun a b => keyLt a.1 b.1 = true) es)
    (hwf : ∀ e ∈ es, wfEntry e) :
    ∃ t, (SsTableBuilder.addAll (SsTableBuilder.new bs) es).build id = some t ∧
      ∀ q, keyLt t.last_key q = true →
        t.find_block_idx q = t.block_meta.length ∧
        SsTableIterator.create_and_seek_to_key t q = none := by
  obtain ⟨t, hbuild, hmeta, hoff, hfile, hlast⟩ :=
    build_spec bs id es hne (fun e he => (hwf e he).1)
  have hCne : ∀ c ∈ chunks bs es, c ≠ [] := chunks_mem_ne_nil bs es
  have hmetaLen : t.block_meta.length = (chunks bs es).length := by
    rw [hmeta, sealedMeta_length]
  have hflat : (chunks bs es).flatten = es := chunks_flatten bs es
  have hCnil : chunks bs es ≠ [] := chunks_ne_nil bs es hne
  have hlast2 : t.last_key = (es.getLastD ([], [])).1 := by
    rw [hlast, ← flatten_getLastD (chunks bs es) hCnil hCne ([], []), hflat]
  refine ⟨t, hbuild, ?_⟩
  intro q hq
  have hallpc : ∀ c ∈ chunks bs es,
      (fun c => !keyLt (c.getLastD ([], [])).1 q) c = false := by
    intro c hc
    have hmem : c.getLastD ([], []) ∈ es := by
      have hm := List.mem_flatten.mpr ⟨c, hc, getLastD_mem c (hCne c hc) ([], [])⟩
      rw [hflat] at hm
      exact hm
    have hk : keyLt (c.getLastD ([], [])).1 q = true := by
      rcases sorted_le_last es hsorted _ hmem with he | he
      · rw [he, ← hlast2]
        exact hq
      · exact keyLt_trans he (by rw [← hlast2]; exact hq)
    show (!keyLt (c.getLastD ([], [])).1 q) = false
    rw [hk]
    rfl
  have hf : t.find_block_idx q = t.block_meta.length := by
    rw [SsTable.find_block_idx, hmeta, findIdx_sealedMeta, sealedMeta_length]
    exact List.findIdx_eq_length.mpr hallpc
  refine ⟨hf, ?_⟩
  have hrd : t.read_block_cached (t.find_block_idx q) = none := by
    rw [hf, SsTable.read_block_cached, if_neg (Nat.lt_irrefl _)]
  simp only [SsTableIterator.create_and_seek_to_key, hrd]

/-- C6 witness: the amended theorem applied to a concrete one-entry
input and target key. -/
theorem c6_witness :
    ([([97], [49])] : List (Key × Val)) ≠ [] ∧
      List.Chain' (fun a b => keyLt a.1 b.1 = true) [([97], [49])] ∧
      (∀ e ∈ ([([97], [49])] : List (Key × Val)), wfEntry e) ∧
      ∃ t, (SsTableBuilder.addAll (SsTableBuilder.new 16) [([97], [49])]).build 0 = some t ∧
        ∀ q, keyLt t.last_key q = true →
          t.find_block_idx q = t.block_meta.length ∧
          SsTableIterator.create_and_seek_to_key t q = none :=
  ⟨by decide, List.Chain.nil,
    by intro e he; simp only [List.mem_singleton] at he;
       rcases he with rfl <;> exact ⟨by decide, by decide, by decide⟩,
    c6_read_before_check 16 0 [([97], [49])] (by decide) List.Chain.nil
      (by intro e he; simp only [List.mem_singleton] at he;
          rcases he with rfl <;> exact ⟨by decide, by decide, by decide⟩)⟩

/-! ## Merge-iterator: heap order lemmas -/

theorem beq_key_iff (a b : Key) : (a == b) = true ↔ a = b := by
  exact beq_iff_eq

theorem wLe_trans {a b c : HeapWrapper} (h1 : wLe a b = true) (h2 : wLe b c = true) :
    wLe a c = true := by
  simp only [wLe, Bool.or_eq_true, Bool.and_eq_true, beq_iff_eq, decide_eq_true_eq] at h1 h2 ⊢
  rcases h1 with h1 | ⟨h1k, h1i⟩
  · rcases h2 with h2 | ⟨h2k, h2i⟩
    · exact Or.inl (keyLt_trans h1 h2)
    · exact Or.inl (h2k ▸ h1)
  · rcases h2 with h2 | ⟨h2k, h2i⟩
    · exact Or.inl (h1k ▸ h2)
    · exact Or.inr ⟨h1k.trans h2k, Nat.le_trans h1i h2i⟩

theorem wLe_total {a b : HeapWrapper} (h : wLe a b = false) : wLe b a = true := by
  simp only [wLe, Bool.or_eq_false_iff, Bool.and_eq_false_iff, Bool.or_eq_true,
    Bool.and_eq_true, beq_iff_eq, decide_eq_true_eq] at h ⊢
  rcases keyLt_conn a.iter.keyI b.iter.keyI with hk | hk | hk
  · rw [hk] at h
    exact absurd h.1 (by simp)
  · exact Or.inl hk
  · rcases h.2 with h2 | h2
    · rw [hk] at h2
      simp at h2
    · refine Or.inr ⟨hk.symm, ?_⟩
      simp only [decide_eq_false_iff_not, Nat.not_le] at h2
      omega

theorem chain_first_le (w : HeapWrapper) (rest : List HeapWrapper)
    (hs : List.Chain' (fun a b => wLe a b = true) (w :: rest)) :
    ∀ x ∈ rest, wLe w x = true := by
  induction rest generalizing w with
  | nil => intro x hx; simp at hx
  | cons y ys ih =>
    intro x hx
    have hd := List.chain'_cons.mp hs
    rcases List.mem_cons.mp hx with rfl | hx2
    · exact hd.1
    · exact wLe_trans hd.1 (ih y hd.2 x hx2)

theorem sorted_heapPush (w : HeapWrapper) (h : List HeapWrapper)
    (hs : List.Chain' (fun a b => wLe a b = true) h) :
    List.Chain' (fun a b => wLe a b = true) (heapPush w h) := by
  induction h generalizing w with
  | nil => simp [heapPush]
  | cons x xs ih =>
    by_cases hc : wLe w x = true
    · simp only [heapPush, hc, if_true]
      exact List.chain'_cons.mpr ⟨hc, hs⟩
    · simp only [heapPush, hc, Bool.false_eq_true, if_false]
      have htail : List.Chain' (fun a b => wLe a b = true) xs := hs.tail
      have hhead : ∀ z ∈ xs, wLe x z = true := chain_first_le x xs hs
      have hxw : wLe x w = true := wLe_total (by simpa using hc)
      have hrec := ih w htail
      cases hxs : heapPush w xs with
      | nil => simp
      | cons z zs =>
        rw [hxs] at hrec
        refine List.chain'_cons.mpr ⟨?_, hrec⟩
        have hz : z = w ∨ z ∈ xs := by
          have := (mem_heapPush w z xs).mp (by rw [hxs]; simp)
          exact this
        rcases hz with rfl | hz2
        · exact hxw
        · exact hhead z hz2

theorem heapEntries_heapPush (y : HeapWrapper) (l : List HeapWrapper) :
    heapEntries (heapPush y l) = y.iter.entries.length + heapEntries l := by
  induction l with
  | nil => simp [heapPush, heapEntries]
  | cons z zs ih =>
    by_cases hc : wLe y z = true
    · simp [heapPush, hc, heapEntries]
    · simp only [heapPush, hc, Bool.false_eq_true, if_false]
      simp only [heapEntries, List.map_cons, List.sum_cons] at ih ⊢
      omega

theorem createGo_sorted (its : List MIter) :
    ∀ i, List.Chain' (fun a b => wLe a b = true) (createGo i its) := by
  induction its with
  | nil => intro i; simp [createGo]
  | cons it rest ih =>
    intro i
    by_cases hv : MIter.isValid it = true
    · simp only [createGo, hv, if_true]
      exact sorted_heapPush _ _ (ih (i + 1))
    · simp only [createGo, hv, Bool.false_eq_true, if_false]
      exact ih i

theorem createGo_entries (its : List MIter) :
    ∀ i, heapEntries (createGo i its) =
      ((its.filter MIter.isValid).map fun it => it.entries.length).sum := by
  induction its with
  | nil => intro i; simp [createGo, heapEntries]
  | cons it rest ih =>
    intro i
    by_cases hv : MIter.isValid it = true
    · simp only [createGo, hv, if_true, List.filter_cons_of_pos hv, List.map_cons,
        List.sum_cons]
      rw [heapEntries_heapPush, ih (i + 1)]
    · simp only [createGo, hv, Bool.false_eq_true, if_false,
        List.filter_cons_of_neg (by simpa using hv)]
      exact ih i

theorem create_eq_popHeap (its : List MIter) :
    MergeIterator.create its = popHeap (createGo 0 its) := by
  rw [MergeIterator.create, popHeap.eq_def]

theorem sorted_head_lt (e : Key × Val) (l : List (Key × Val))
    (hs : List.Chain' (fun a b => keyLt a.1 b.1 = true) (e :: l)) :
    ∀ x ∈ l, keyLt e.1 x.1 = true := by
  induction l generalizing e with
  | nil => intro x hx; simp at hx
  | cons y ys ih =>
    intro x hx
    have hd := List.chain'_cons.mp hs
    rcases List.mem_cons.mp hx with rfl | hx2
    · exact hd.1
    · exact keyLt_trans hd.1 (ih y hd.2 x hx2)

theorem heapPush_length (y : HeapWrapper) (l : List HeapWrapper) :
    (heapPush y l).length = l.length + 1 := by
  induction l with
  | nil => rfl
  | cons z zs ih =>
    by_cases hc : wLe y z = true
    · simp [heapPush, hc]
    · simp only [heapPush, hc, Bool.false_eq_true, if_false, List.length_cons, ih]

/-- The duplicate-skipping loop on a poison-free sorted heap whose keys are
all `≥ ck`: it never errors, keeps the heap sorted without increasing the
entry count, and its result holds exactly the wrappers whose key differs
from `ck` untouched, plus the one-step advance of every wrapper holding
`ck` that survives the advance. -/
theorem skipDup_spec (ck : Key) : ∀ (n : Nat) (h : List HeapWrapper),
    2 * heapEntries h + h.length ≤ n →
    List.Chain' (fun a b => wLe a b = true) h →
    (∀ w ∈ h, w.iter.poison = false) →
    (∀ w ∈ h, w.iter.entries ≠ []) →
    (∀ w ∈ h, List.Chain' (fun a b => keyLt a.1 b.1 = true) w.iter.entries) →
    (∀ w ∈ h, keyLt w.iter.keyI ck = false) →
    ∃ h2, skipDup ck h = (none, h2) ∧
      List.Chain' (fun a b => wLe a b = true) h2 ∧
      heapEntries h2 ≤ heapEntries h ∧
      ∀ x, (x ∈ h2 ↔ (x ∈ h ∧ x.iter.keyI ≠ ck) ∨
        (∃ u ∈ h, u.iter.keyI = ck ∧ u.iter.entries.tail ≠ [] ∧
          x = ⟨u.idx, ⟨u.iter.entries.tail, false⟩⟩)) := by
  intro n
  induction n with
  | zero =>
    intro h hm hs hpois hval hasc hmin
    cases h with
    | nil =>
      refine ⟨[], by rw [skipDup], List.chain'_nil, Nat.le_refl _, ?_⟩
      simp
    | cons w rest => simp [heapEntries] at hm
  | succ n ih =>
    intro h hm hs hpois hval hasc hmin
    cases h with
    | nil =>
      refine ⟨[], by rw [skipDup], List.chain'_nil, Nat.le_refl _, ?_⟩
      simp
    | cons w rest =>
      by_cases hk : w.iter.keyI = ck
      · -- the top holds the current key: it is advanced
        have hpw : w.iter.poison = false := hpois w (by simp)
        have hnextw : w.iter.nextI = Except.ok ⟨w.iter.entries.tail, false⟩ := by
          rw [MIter.nextI, hpw]
          rfl
        obtain ⟨e1, tl, hw⟩ := List.exists_cons_of_ne_nil (hval w (by simp))
        have htl : w.iter.entries.tail = tl := by
          rw [hw]
          rfl
        have hkw : w.iter.keyI = e1.1 := by
          rw [MIter.keyI, hw]
        have hmcons : 2 * (w.iter.entries.length + heapEntries rest) +
            (rest.length + 1) ≤ n + 1 := by
          simpa [heapEntries] using hm
        have hlen1 : 1 ≤ w.iter.entries.length := by
          rw [hw]
          simp
        by_cases htail : tl = []
        · -- advance exhausts the top wrapper: it is dropped
          have hstep : skipDup ck (w :: rest) = skipDup ck rest := by
            rw [skipDup, if_pos hk]
            split
            · rename_i e heq
              rw [hnextw] at heq
              exact Except.noConfusion heq
            · rename_i it2 heq
              rw [hnextw] at heq
              injection heq with heq2
              have hinv : ¬ (MIter.isValid it2 = true) := by
                rw [← heq2]
                simp [MIter.isValid, htl, htail]
              rw [dif_neg hinv]
          obtain ⟨h2, hsk, hs2, he2, hmem2⟩ := ih rest
            (by simp only [heapEntries, List.map_cons, List.sum_cons] at hmcons ⊢; omega)
            hs.tail (fun x hx => hpois x (by simp [hx]))
            (fun x hx => hval x (by simp [hx]))
            (fun x hx => hasc x (by simp [hx]))
            (fun x hx => hmin x (by simp [hx]))
          refine ⟨h2, hstep ▸ hsk, hs2, ?_, ?_⟩
          · simp only [heapEntries, List.map_cons, List.sum_cons]
            simp only [heapEntries] at he2
            omega
          · intro x
            rw [hmem2 x]
            constructor
            · rintro (⟨hx, hxk⟩ | ⟨u, hu, h1, h2u, h3⟩)
              · exact Or.inl ⟨by simp [hx], hxk⟩
              · exact Or.inr ⟨u, by simp [hu], h1, h2u, h3⟩
            · rintro (⟨hx, hxk⟩ | ⟨u, hu, h1, h2u, h3⟩)
              · rcases List.mem_cons.mp hx with rfl | hx2
                · exact absurd hk hxk
                · exact Or.inl ⟨hx2, hxk⟩
              · rcases List.mem_cons.mp hu with rfl | hu2
                · rw [htl] at h2u
                  exact absurd htail h2u
                · exact Or.inr ⟨u, hu2, h1, h2u, h3⟩
        · -- the advanced top is still valid: it is pushed back
          obtain ⟨e2, tl2, htl2⟩ := List.exists_cons_of_ne_nil htail
          have hstep : skipDup ck (w :: rest) =
              skipDup ck (heapPush ⟨w.idx, ⟨w.iter.entries.tail, false⟩⟩ rest) := by
            rw [skipDup, if_pos hk]
            split
            · rename_i e heq
              rw [hnextw] at heq
              exact Except.noConfusion heq
            · rename_i it2 heq
              rw [hnextw] at heq
              injection heq with heq2
              have hvv : MIter.isValid it2 = true := by
                rw [← heq2]
                simp [MIter.isValid, htl, htl2]
              rw [dif_pos hvv, ← heq2]
          have hadvk : (⟨w.idx, ⟨w.iter.entries.tail, false⟩⟩ : HeapWrapper).iter.keyI = e2.1 := by
            rw [htl, htl2]
            rfl
          have hck_lt : keyLt ck e2.1 = true := by
            have hchain := hasc w (by simp)
            rw [hw, htl2] at hchain
            have := (List.chain'_cons.mp hchain).1
            rw [← hkw, hk] at this
            exact this
          have hadv_ne : (⟨w.idx, ⟨w.iter.entries.tail, false⟩⟩ : HeapWrapper).iter.keyI ≠ ck := by
            rw [hadvk]
            intro hcon
            rw [← hcon] at hck_lt
            rw [keyLt_irrefl] at hck_lt
            exact Bool.noConfusion hck_lt
          obtain ⟨h2, hsk, hs2, he2, hmem2⟩ := ih
            (heapPush ⟨w.idx, ⟨w.iter.entries.tail, false⟩⟩ rest)
            (by
              have hlentail : w.iter.entries.tail.length + 1 = w.iter.entries.length := by
                rw [hw]
                simp
              rw [heapEntries_heapPush, heapPush_length]
              show 2 * (w.iter.entries.tail.length + heapEntries rest) + (rest.length + 1) ≤ n
              simp only [heapEntries, List.map_cons, List.sum_cons] at hmcons ⊢
              omega)
            (sorted_heapPush _ _ hs.tail)
            (by
              intro x hx
              rcases (mem_heapPush _ _ _).mp hx with rfl | hx2
              · rfl
              · exact hpois x (by simp [hx2]))
            (by
              intro x hx
              rcases (mem_heapPush _ _ _).mp hx with rfl | hx2
              · simp only []
                rw [htl, htl2]
                simp
              · exact hval x (by simp [hx2]))
            (by
              intro x hx
              rcases (mem_heapPush _ _ _).mp hx with rfl | hx2
              · show List.Chain' (fun a b => keyLt a.1 b.1 = true) w.iter.entries.tail
                rw [htl]
                have hca := hasc w (List.mem_cons_self w rest)
                rw [hw] at hca
                exact hca.tail
              · exact hasc x (by simp [hx2]))
            (by
              intro x hx
              rcases (mem_heapPush _ _ _).mp hx with rfl | hx2
              · rw [hadvk]
                exact keyLt_asymm hck_lt
              · exact hmin x (by simp [hx2]))
          refine ⟨h2, hstep ▸ hsk, hs2, ?_, ?_⟩
          · rw [heapEntries_heapPush] at he2
            have hstep2 : (⟨w.idx, ⟨w.iter.entries.tail, false⟩⟩ :
                HeapWrapper).iter.entries.length + heapEntries rest ≤
                heapEntries (w :: rest) := by
              show w.iter.entries.tail.length + heapEntries rest ≤ heapEntries (w :: rest)
              have hlentail : w.iter.entries.tail.length + 1 = w.iter.entries.length := by
                rw [hw]
                simp
              simp only [heapEntries, List.map_cons, List.sum_cons]
              omega
            exact le_trans he2 hstep2
          · intro x
            rw [hmem2 x]
            constructor
            · rintro (⟨hx, hxk⟩ | ⟨u, hu, h1, h2u, h3⟩)
              · rcases (mem_heapPush _ _ _).mp hx with rfl | hx2
                · exact Or.inr ⟨w, by simp, hk, by rw [htl]; exact htail, rfl⟩
                · exact Or.inl ⟨by simp [hx2], hxk⟩
              · rcases (mem_heapPush _ _ _).mp hu with rfl | hu2
                · exact absurd h1 hadv_ne
                · exact Or.inr ⟨u, by simp [hu2], h1, h2u, h3⟩
            · rintro (⟨hx, hxk⟩ | ⟨u, hu, h1, h2u, h3⟩)
              · rcases List.mem_cons.mp hx with rfl | hx2
                · exact absurd hk hxk
                · exact Or.inl ⟨(mem_heapPush _ _ _).mpr (Or.inr hx2), hxk⟩
              · rcases List.mem_cons.mp hu with rfl | hu2
                · refine Or.inl ⟨(mem_heapPush _ _ _).mpr (Or.inl ?_), ?_⟩
                  · rw [h3]
                  · rw [h3]
                    exact hadv_ne
                · exact Or.inr ⟨u, (mem_heapPush _ _ _).mpr (Or.inr hu2), h1, h2u, h3⟩
      · -- the top's key differs: the loop stops at once
        have hckgt : keyLt ck w.iter.keyI = true := by
          rcases keyLt_conn w.iter.keyI ck with hc | hc | hc
          · rw [hmin w (by simp)] at hc
            exact Bool.noConfusion hc
          · exact hc
          · exact absurd hc hk
        have hnone : ∀ u ∈ w :: rest, u.iter.keyI ≠ ck := by
          intro u hu
          rcases List.mem_cons.mp hu with rfl | hu2
          · exact hk
          · have hwu := chain_first_le w rest hs u hu2
            intro hequ
            simp only [wLe, Bool.or_eq_true, Bool.and_eq_true, beq_iff_eq,
              decide_eq_true_eq] at hwu
            rcases hwu with hlt | ⟨heq, _⟩
            · rw [hequ] at hlt
              have hcc := keyLt_trans hckgt hlt
              rw [keyLt_irrefl] at hcc
              exact Bool.noConfusion hcc
            · exact hk (heq.trans hequ)
        refine ⟨w :: rest, by rw [skipDup, if_neg hk], hs, Nat.le_refl _, ?_⟩
        intro x
        constructor
        · intro hx
          exact Or.inl ⟨hx, hnone x hx⟩
        · rintro (⟨hx, hxk⟩ | ⟨u, hu, hueq, h2u, h3⟩)
          · exact hx
          · exact absurd hueq (hnone u hu)

theorem wLe_refl (a : HeapWrapper) : wLe a a = true := by
  simp [wLe]

theorem wLe_le_idx {a b : HeapWrapper} (h : wLe a b = true)
    (hk : a.iter.keyI = b.iter.keyI) : a.idx ≤ b.idx := by
  simp only [wLe, Bool.or_eq_true, Bool.and_eq_true, beq_iff_eq, decide_eq_true_eq] at h
  rcases h with h | ⟨-, h2⟩
  · rw [hk, keyLt_irrefl] at h
    exact Bool.noConfusion h
  · exact h2

/-- Behaviour of a merge iterator in the canonical popped-heap shape: the
scan emits strictly ascending keys, and emits exactly the entries of the
wrapper with the least source index among the wrappers whose iterator
holds the key. -/
theorem mergeScan_spec : ∀ (fuel : Nat) (h : List HeapWrapper),
    List.Chain' (fun a b => wLe a b = true) h →
    GoodW h →
    heapEntries h < fuel →
    List.Chain' (fun a b => keyLt a.1 b.1 = true) (mergeScan fuel (popHeap h)) ∧
    ∀ k v, ((k, v) ∈ mergeScan fuel (popHeap h) ↔
      ∃ w ∈ h, (k, v) ∈ w.iter.entries ∧
        ∀ w2 ∈ h, k ∈ w2.iter.entries.map Prod.fst → w.idx ≤ w2.idx) := by
  intro fuel
  induction fuel with
  | zero =>
    intro h _ _ hfu
    exact absurd hfu (Nat.not_lt_zero _)
  | succ fuel ih =>
    intro h hs hgood hfu
    obtain ⟨hpoisW, hvalW, hascW, hidxW⟩ := hgood
    cases h with
    | nil =>
      constructor
      · rw [mergeScan, if_neg (by decide)]
        exact List.chain'_nil
      · intro k v
        rw [mergeScan, if_neg (by decide)]
        simp
    | cons cur hrest =>
      obtain ⟨e0, tl0, hcur⟩ := List.exists_cons_of_ne_nil (hvalW cur (by simp))
      have hk0 : cur.iter.keyI = e0.1 := by
        rw [MIter.keyI, hcur]
      have hv0 : cur.iter.valI = e0.2 := by
        rw [MIter.valI, hcur]
      have hvalidcur : cur.iter.isValid = true := by
        rw [MIter.isValid]
        exact bnot_isEmpty _ (hvalW cur (by simp))
      have hvalid : MergeIterator.isValidM (popHeap (cur :: hrest)) = true := hvalidcur
      have hminrestAll : ∀ w2 ∈ cur :: hrest, wLe cur w2 = true := by
        intro w2 hw2
        rcases List.mem_cons.mp hw2 with rfl | h2
        · exact wLe_refl _
        · exact chain_first_le cur hrest hs w2 h2
      have hminkey : ∀ w2 ∈ hrest, keyLt w2.iter.keyI cur.iter.keyI = false := by
        intro w2 hw2
        have hwl := chain_first_le cur hrest hs w2 hw2
        simp only [wLe, Bool.or_eq_true, Bool.and_eq_true, beq_iff_eq,
          decide_eq_true_eq] at hwl
        rcases hwl with hlt | ⟨heq, -⟩
        · exact keyLt_asymm hlt
        · rw [← heq]
          exact keyLt_irrefl _
      have hminkey0 : ∀ w2 ∈ cur :: hrest, keyLt w2.iter.keyI e0.1 = false := by
        intro w2 hw2
        rcases List.mem_cons.mp hw2 with rfl | h2
        · rw [hk0]
          exact keyLt_irrefl _
        · rw [← hk0]
          exact hminkey w2 h2
      obtain ⟨h2, hskip, hs2, hE2, hmem2⟩ := skipDup_spec cur.iter.keyI
        (2 * heapEntries hrest + hrest.length) hrest (Nat.le_refl _)
        hs.tail (fun x hx => hpoisW x (by simp [hx])) (fun x hx => hvalW x (by simp [hx]))
        (fun x hx => hascW x (by simp [hx])) hminkey
      simp only [hk0] at hmem2
      have hnextc : cur.iter.nextI = Except.ok ⟨cur.iter.entries.tail, false⟩ := by
        rw [MIter.nextI, hpoisW cur (by simp)]
        rfl
      have htail_len : cur.iter.entries.tail.length + 1 = cur.iter.entries.length := by
        rw [hcur]
        simp
      obtain ⟨h3, hnextM, hs3, hE3a, hmem3⟩ :
          ∃ h3, MergeIterator.nextM (popHeap (cur :: hrest)) = (none, popHeap h3) ∧
            List.Chain' (fun a b => wLe a b = true) h3 ∧
            heapEntries h3 + 1 ≤ heapEntries (cur :: hrest) ∧
            (∀ x, x ∈ h3 ↔ (x ∈ cur :: hrest ∧ x.iter.keyI ≠ e0.1) ∨
              (∃ u ∈ cur :: hrest, u.iter.keyI = e0.1 ∧ u.iter.entries.tail ≠ [] ∧
                x = ⟨u.idx, ⟨u.iter.entries.tail, false⟩⟩)) := by
        by_cases hadvv : MIter.isValid ⟨cur.iter.entries.tail, false⟩ = true
        · have htailne : cur.iter.entries.tail ≠ [] := by
            intro hcon
            rw [MIter.isValid, hcon] at hadvv
            exact Bool.noConfusion hadvv
          refine ⟨heapPush ⟨cur.idx, ⟨cur.iter.entries.tail, false⟩⟩ h2, ?_, ?_, ?_, ?_⟩
          · show MergeIterator.nextM ⟨hrest, some cur⟩ = _
            simp only [MergeIterator.nextM, hvalidcur, Bool.not_true, Bool.false_eq_true,
              if_false, hskip, hnextc, hadvv, if_true]
            cases hh : heapPush ⟨cur.idx, ⟨cur.iter.entries.tail, false⟩⟩ h2 with
            | nil => rfl
            | cons w0 rest0 => rfl
          · exact sorted_heapPush _ _ hs2
          · rw [heapEntries_heapPush]
            show cur.iter.entries.tail.length + heapEntries h2 + 1 ≤ heapEntries (cur :: hrest)
            simp only [heapEntries, List.map_cons, List.sum_cons] at hE2 ⊢
            omega
          · intro x
            rw [mem_heapPush, hmem2 x]
            constructor
            · rintro (rfl | (⟨hx, hxk⟩ | ⟨u, hu, h1, h2u, h3x⟩))
              · exact Or.inr ⟨cur, by simp, hk0, htailne, rfl⟩
              · exact Or.inl ⟨by simp [hx], hxk⟩
              · exact Or.inr ⟨u, by simp [hu], h1, h2u, h3x⟩
            · rintro (⟨hx, hxk⟩ | ⟨u, hu, h1, h2u, h3x⟩)
              · rcases List.mem_cons.mp hx with rfl | hx2
                · exact absurd hk0 hxk
                · exact Or.inr (Or.inl ⟨hx2, hxk⟩)
              · rcases List.mem_cons.mp hu with rfl | hu2
                · left
                  rw [h3x]
                · exact Or.inr (Or.inr ⟨u, hu2, h1, h2u, h3x⟩)
        · have hadvf : MIter.isValid ⟨cur.iter.entries.tail, false⟩ = false := by
            cases hb : MIter.isValid ⟨cur.iter.entries.tail, false⟩ with
            | true => exact absurd hb hadvv
            | false => rfl
          have htail0 : cur.iter.entries.tail = [] := by
            have hb := hadvf
            rw [MIter.isValid] at hb
            cases hc : cur.iter.entries.tail with
            | nil => rfl
            | cons a l =>
              rw [hc] at hb
              exact Bool.noConfusion hb
          refine ⟨h2, ?_, hs2, ?_, ?_⟩
          · show MergeIterator.nextM ⟨hrest, some cur⟩ = _
            simp only [MergeIterator.nextM, hvalidcur, Bool.not_true, Bool.false_eq_true,
              if_false, hskip, hnextc, hadvf]
            cases hh : h2 with
            | nil => rfl
            | cons w0 rest0 => rfl
          · show heapEntries h2 + 1 ≤ heapEntries (cur :: hrest)
            simp only [heapEntries, List.map_cons, List.sum_cons] at hE2 ⊢
            omega
          · intro x
            rw [hmem2 x]
            constructor
            · rintro (⟨hx, hxk⟩ | ⟨u, hu, h1, h2u, h3x⟩)
              · exact Or.inl ⟨by simp [hx], hxk⟩
              · exact Or.inr ⟨u, by simp [hu], h1, h2u, h3x⟩
            · rintro (⟨hx, hxk⟩ | ⟨u, hu, h1, h2u, h3x⟩)
              · rcases List.mem_cons.mp hx with rfl | hx2
                · exact absurd hk0 hxk
                · exact Or.inl ⟨hx2, hxk⟩
              · rcases List.mem_cons.mp hu with rfl | hu2
                · exact absurd h2u (by rw [htail0]; simp)
                · exact Or.inr ⟨u, hu2, h1, h2u, h3x⟩
      have hgood3 : GoodW h3 := by
        refine ⟨?_, ?_, ?_, ?_⟩
        · intro x hx
          rcases (hmem3 x).mp hx with ⟨hxW, -⟩ | ⟨u, hu, -, -, rfl⟩
          · exact hpoisW x hxW
          · rfl
        · intro x hx
          rcases (hmem3 x).mp hx with ⟨hxW, -⟩ | ⟨u, hu, -, hut, rfl⟩
          · exact hvalW x hxW
          · exact hut
        · intro x hx
          rcases (hmem3 x).mp hx with ⟨hxW, -⟩ | ⟨u, hu, -, -, rfl⟩
          · exact hascW x hxW
          · show List.Chain' (fun a b => keyLt a.1 b.1 = true) u.iter.entries.tail
            exact (hascW u hu).tail
        · intro x hx y hy hxy
          rcases (hmem3 x).mp hx with ⟨hxW, hxk⟩ | ⟨u, hu, huk, hut, rfl⟩ <;>
            rcases (hmem3 y).mp hy with ⟨hyW, hyk⟩ | ⟨u2, hu2, hu2k, hu2t, rfl⟩
          · exact hidxW x hxW y hyW hxy
          · have hxu : x = u2 := hidxW x hxW u2 hu2 hxy
            rw [hxu] at hxk
            exact absurd hu2k hxk
          · have hyu : y = u := hidxW y hyW u hu (Eq.symm hxy)
            rw [hyu] at hyk
            exact absurd huk hyk
          · have huu : u = u2 := hidxW u hu u2 hu2 hxy
            rw [huu]
      have hk0mem : (e0.1, e0.2) ∈ cur.iter.entries := by
        rw [hcur]
        exact List.mem_cons_self _ _
      have hkeyeq : ∀ w2 ∈ cur :: hrest, e0.1 ∈ w2.iter.entries.map Prod.fst →
          w2.iter.keyI = e0.1 := by
        intro w2 hw2 hkin
        obtain ⟨f0, ftl, hf⟩ := List.exists_cons_of_ne_nil (hvalW w2 hw2)
        have hkey2 : w2.iter.keyI = f0.1 := by
          rw [MIter.keyI, hf]
        obtain ⟨ew, hew, hewk⟩ := List.mem_map.mp hkin
        rw [hf] at hew
        rcases List.mem_cons.mp hew with rfl | hew2
        · rw [hkey2, hewk]
        · have hlt := sorted_head_lt f0 ftl (by
            have hca := hascW w2 hw2
            rw [hf] at hca
            exact hca) ew hew2
          rw [hewk] at hlt
          rw [← hkey2] at hlt
          rw [hminkey0 w2 hw2] at hlt
          exact Bool.noConfusion hlt
      have hk0min : ∀ w2 ∈ cur :: hrest, e0.1 ∈ w2.iter.entries.map Prod.fst →
          cur.idx ≤ w2.idx := by
        intro w2 hw2 hkin
        exact wLe_le_idx (hminrestAll w2 hw2) (hk0.trans (hkeyeq w2 hw2 hkin).symm)
      have huniq : ∀ w ∈ cur :: hrest, ∀ v, (e0.1, v) ∈ w.iter.entries →
          (∀ w2 ∈ cur :: hrest, e0.1 ∈ w2.iter.entries.map Prod.fst → w.idx ≤ w2.idx) →
          w = cur ∧ v = e0.2 := by
        intro w hw v hv hmin2
        have hkin : e0.1 ∈ w.iter.entries.map Prod.fst :=
          List.mem_map.mpr ⟨(e0.1, v), hv, rfl⟩
        have hkeyw := hkeyeq w hw hkin
        have hle1 : w.idx ≤ cur.idx :=
          hmin2 cur (by simp) (List.mem_map.mpr ⟨(e0.1, e0.2), hk0mem, rfl⟩)
        have hle2 : cur.idx ≤ w.idx :=
          wLe_le_idx (hminrestAll w hw) (hk0.trans hkeyw.symm)
        have hweq : w = cur := hidxW w hw cur (by simp) (Nat.le_antisymm hle1 hle2)
        subst hweq
        refine ⟨rfl, ?_⟩
        rw [hcur] at hv
        rcases List.mem_cons.mp hv with heq | hvtl
        · exact congrArg Prod.snd heq
        · have hlt := sorted_head_lt e0 tl0 (by
            have hca := hascW w hw
            rw [hcur] at hca
            exact hca) (e0.1, v) hvtl
          rw [keyLt_irrefl] at hlt
          exact Bool.noConfusion hlt
      have hW3keys : ∀ x ∈ h3, ∀ e ∈ x.iter.entries, keyLt e0.1 e.1 = true := by
        intro x hx e he
        rcases (hmem3 x).mp hx with ⟨hxW, hxk⟩ | ⟨u, hu, huk, hut, rfl⟩
        · obtain ⟨f0, ftl, hf⟩ := List.exists_cons_of_ne_nil (hvalW x hxW)
          have hxkey : x.iter.keyI = f0.1 := by
            rw [MIter.keyI, hf]
          have hlt0 : keyLt e0.1 f0.1 = true := by
            rcases keyLt_conn e0.1 f0.1 with hc | hc | hc
            · exact hc
            · rw [← hxkey] at hc
              rw [hminkey0 x hxW] at hc
              exact Bool.noConfusion hc
            · rw [← hxkey] at hc
              exact absurd hc.symm hxk
          rw [hf] at he
          rcases List.mem_cons.mp he with rfl | h2
          · exact hlt0
          · have hlt := sorted_head_lt f0 ftl (by
              have hca := hascW x hxW
              rw [hf] at hca
              exact hca) e h2
            exact keyLt_trans hlt0 hlt
        · obtain ⟨g0, gtl, hg⟩ := List.exists_cons_of_ne_nil (hvalW u hu)
          have hg0 : g0.1 = e0.1 := by
            rw [MIter.keyI, hg] at huk
            exact huk
          have hegtl : e ∈ gtl := by
            have he2 : e ∈ u.iter.entries.tail := he
            rw [hg] at he2
            exact he2
          have hlt := sorted_head_lt g0 gtl (by
            have hca := hascW u hu
            rw [hg] at hca
            exact hca) e hegtl
          rw [hg0] at hlt
          exact hlt
      have hF2 : ∀ u ∈ cur :: hrest, ∀ e ∈ u.iter.entries, e.1 ≠ e0.1 →
          ∃ x ∈ h3, x.idx = u.idx ∧ e ∈ x.iter.entries := by
        intro u hu e he hene
        by_cases huk : u.iter.keyI = e0.1
        · obtain ⟨g0, gtl, hg⟩ := List.exists_cons_of_ne_nil (hvalW u hu)
          have hg0 : g0.1 = e0.1 := by
            rw [MIter.keyI, hg] at huk
            exact huk
          have hetl : e ∈ gtl := by
            rw [hg] at he
            rcases List.mem_cons.mp he with rfl | h2
            · exact absurd hg0 hene
            · exact h2
          have htailne2 : u.iter.entries.tail ≠ [] := by
            intro hcon
            rw [hg] at hcon
            have hcon2 : gtl = [] := hcon
            rw [hcon2] at hetl
            simp at hetl
          refine ⟨⟨u.idx, ⟨u.iter.entries.tail, false⟩⟩, ?_, rfl, ?_⟩
          · exact (hmem3 _).mpr (Or.inr ⟨u, hu, huk, htailne2, rfl⟩)
          · show e ∈ u.iter.entries.tail
            rw [hg]
            exact hetl
        · exact ⟨u, (hmem3 _).mpr (Or.inl ⟨hu, huk⟩), rfl, he⟩
      have hF1 : ∀ x ∈ h3, ∃ u ∈ cur :: hrest, u.idx = x.idx ∧
          ∀ e : Key × Val, e.1 ≠ e0.1 → (e ∈ x.iter.entries ↔ e ∈ u.iter.entries) := by
        intro x hx
        rcases (hmem3 x).mp hx with ⟨hxW, -⟩ | ⟨u, hu, huk, hut, rfl⟩
        · exact ⟨x, hxW, rfl, fun e he => Iff.rfl⟩
        · refine ⟨u, hu, rfl, ?_⟩
          intro e hene
          obtain ⟨g0, gtl, hg⟩ := List.exists_cons_of_ne_nil (hvalW u hu)
          have hg0 : g0.1 = e0.1 := by
            rw [MIter.keyI, hg] at huk
            exact huk
          constructor
          · intro hex
            have he2 : e ∈ u.iter.entries.tail := hex
            rw [hg] at he2 ⊢
            exact List.mem_cons.mpr (Or.inr he2)
          · intro heu
            rw [hg] at heu
            rcases List.mem_cons.mp heu with rfl | h2
            · exact absurd hg0 hene
            · show e ∈ u.iter.entries.tail
              rw [hg]
              exact h2
      obtain ⟨hchain2, hmemscan⟩ := ih h3 hs3 hgood3 (by omega)
      have hscan : mergeScan (fuel + 1) (popHeap (cur :: hrest)) =
          (e0.1, e0.2) :: mergeScan fuel (popHeap h3) := by
        rw [mergeScan, if_pos hvalid, hnextM]
        show (cur.iter.keyI, cur.iter.valI) :: mergeScan fuel (popHeap h3) = _
        rw [hk0, hv0]
      constructor
      · rw [hscan]
        cases houtTail : mergeScan fuel (popHeap h3) with
        | nil => exact List.chain'_singleton _
        | cons b obs =>
          rw [houtTail] at hchain2
          refine List.chain'_cons.mpr ⟨?_, hchain2⟩
          have hbmem : (b.1, b.2) ∈ mergeScan fuel (popHeap h3) := by
            rw [houtTail]
            exact List.mem_cons_self _ _
          obtain ⟨x, hx3, hex, -⟩ := (hmemscan b.1 b.2).mp hbmem
          exact hW3keys x hx3 (b.1, b.2) hex
      · intro k v
        rw [hscan]
        constructor
        · intro hkv
          rcases List.mem_cons.mp hkv with heq | hmem
          · have hkk : k = e0.1 := congrArg Prod.fst heq
            have hvv : v = e0.2 := congrArg Prod.snd heq
            subst hkk
            subst hvv
            exact ⟨cur, by simp, hk0mem, hk0min⟩
          · obtain ⟨x, hx3, hex, hminx⟩ := (hmemscan k v).mp hmem
            have hkne : k ≠ e0.1 := by
              have hlt := hW3keys x hx3 (k, v) hex
              intro hcon
              rw [hcon, keyLt_irrefl] at hlt
              exact Bool.noConfusion hlt
            obtain ⟨u, hu, huidx, hiff⟩ := hF1 x hx3
            refine ⟨u, hu, (hiff (k, v) hkne).mp hex, ?_⟩
            intro w2 hw2 hkw2
            obtain ⟨ew, hew, hewk⟩ := List.mem_map.mp hkw2
            obtain ⟨x2, hx2, hx2idx, hex2⟩ := hF2 w2 hw2 ew hew (by rw [hewk]; exact hkne)
            have hle := hminx x2 hx2 (List.mem_map.mpr ⟨ew, hex2, hewk⟩)
            omega
        · rintro ⟨w, hw, hkvw, hminw⟩
          by_cases hkeq : k = e0.1
          · subst hkeq
            obtain ⟨-, hveq⟩ := huniq w hw v hkvw hminw
            subst hveq
            exact List.mem_cons_self _ _
          · obtain ⟨x, hx3, hxidx, hex⟩ := hF2 w hw (k, v) hkvw hkeq
            have hminx : ∀ x2 ∈ h3, k ∈ x2.iter.entries.map Prod.fst → x.idx ≤ x2.idx := by
              intro x2 hx2 hkx2
              obtain ⟨u2, hu2, hu2idx, hiff2⟩ := hF1 x2 hx2
              obtain ⟨ew, hew, hewk⟩ := List.mem_map.mp hkx2
              have hew2 : ew ∈ u2.iter.entries := (hiff2 ew (by rw [hewk]; exact hkeq)).mp hew
              have hle := hminw u2 hu2 (List.mem_map.mpr ⟨ew, hew2, hewk⟩)
              omega
            exact List.mem_cons.mpr (Or.inr ((hmemscan k v).mpr ⟨x, hx3, hex, hminx⟩))

theorem getD_map_mi (Ss : List (List (Key × Val))) (j : Nat) (hj : j < Ss.length) :
    (Ss.map fun s => (⟨s, false⟩ : MIter)).getD j ⟨[], false⟩ = ⟨Ss.getD j [], false⟩ := by
  rw [List.getD_eq_get _ _ (by rw [List.length_map]; exact hj),
    List.getD_eq_get _ _ hj]
  exact List.get_map _

/-- C2: for a merge iterator created over valid sources that each emit
strictly ascending keys, a full scan emits strictly ascending keys and,
for every key, exactly the entry of the least-index source holding that
key. -/
theorem c2_merge_sorted_dedup (Ss : List (List (Key × Val)))
    (hne : ∀ s ∈ Ss, s ≠ [])
    (hasc : ∀ s ∈ Ss, List.Chain' (fun a b => keyLt a.1 b.1 = true) s)
    (fuel : Nat) (hfuel : (Ss.map List.length).sum < fuel) :
    List.Chain' (fun a b => keyLt a.1 b.1 = true)
      (mergeScan fuel (MergeIterator.create (Ss.map fun s => ⟨s, false⟩))) ∧
    ∀ k v, ((k, v) ∈ mergeScan fuel (MergeIterator.create (Ss.map fun s => ⟨s, false⟩)) ↔
      ∃ i, i < Ss.length ∧ (k, v) ∈ Ss.getD i [] ∧
        ∀ j, j < Ss.length → k ∈ (Ss.getD j []).map Prod.fst → i ≤ j) := by
  have hvalid_all : ∀ it ∈ Ss.map (fun s => (⟨s, false⟩ : MIter)),
      MIter.isValid it = true := by
    intro it hit
    obtain ⟨s, hsm, rfl⟩ := List.mem_map.mp hit
    rw [MIter.isValid]
    exact bnot_isEmpty _ (hne s hsm)
  have hfilter : (Ss.map fun s => (⟨s, false⟩ : MIter)).filter MIter.isValid =
      Ss.map fun s => (⟨s, false⟩ : MIter) := List.filter_eq_self.mpr hvalid_all
  have hmemW : ∀ x, x ∈ createGo 0 (Ss.map fun s => ⟨s, false⟩) ↔
      ∃ j, j < Ss.length ∧ x = ⟨j, ⟨Ss.getD j [], false⟩⟩ := by
    intro x
    rw [mem_createGo _ 0 x]
    constructor
    · rintro ⟨j, hj, rfl⟩
      rw [hfilter, List.length_map] at hj
      refine ⟨j, hj, ?_⟩
      rw [hfilter, getD_map_mi Ss j hj]
      simp
    · rintro ⟨j, hj, rfl⟩
      refine ⟨j, ?_, ?_⟩
      · rw [hfilter, List.length_map]
        exact hj
      · rw [hfilter, getD_map_mi Ss j hj]
        simp
  have hsorted := createGo_sorted (Ss.map fun s => ⟨s, false⟩) 0
  have hgood : GoodW (createGo 0 (Ss.map fun s => ⟨s, false⟩)) := by
    refine ⟨?_, ?_, ?_, ?_⟩
    · intro w hw
      obtain ⟨j, hj, rfl⟩ := (hmemW w).mp hw
      rfl
    · intro w hw
      obtain ⟨j, hj, rfl⟩ := (hmemW w).mp hw
      exact hne _ (getD_mem_of_lt Ss j hj [])
    · intro w hw
      obtain ⟨j, hj, rfl⟩ := (hmemW w).mp hw
      exact hasc _ (getD_mem_of_lt Ss j hj [])
    · intro x hx y hy hxy
      obtain ⟨j, hj, rfl⟩ := (hmemW x).mp hx
      obtain ⟨j2, hj2, rfl⟩ := (hmemW y).mp hy
      have : j = j2 := hxy
      rw [this]
  have hE : heapEntries (createGo 0 (Ss.map fun s => ⟨s, false⟩)) < fuel := by
    rw [createGo_entries _ 0, hfilter, List.map_map]
    exact lt_of_le_of_lt (le_of_eq (by rfl)) hfuel
  obtain ⟨hchain, hmem⟩ := mergeScan_spec fuel _ hsorted hgood hE
  rw [create_eq_popHeap]
  refine ⟨hchain, ?_⟩
  intro k v
  rw [hmem k v]
  constructor
  · rintro ⟨w, hw, hkv, hmin⟩
    obtain ⟨i, hi, rfl⟩ := (hmemW w).mp hw
    refine ⟨i, hi, hkv, ?_⟩
    intro j hj hkj
    exact hmin ⟨j, ⟨Ss.getD j [], false⟩⟩ ((hmemW _).mpr ⟨j, hj, rfl⟩) hkj
  · rintro ⟨i, hi, hkv, hmin⟩
    refine ⟨⟨i, ⟨Ss.getD i [], false⟩⟩, (hmemW _).mpr ⟨i, hi, rfl⟩, hkv, ?_⟩
    intro w2 hw2 hkw2
    obtain ⟨j, hj, rfl⟩ := (hmemW w2).mp hw2
    exact hmin j hj hkw2

/-- C2 witness: the merge theorem applied to two concrete overlapping
sources. -/
theorem c2_witness :
    (∀ s ∈ ([[([97], [65]), ([99], [67])], [([97], [66]), ([98], [68])]] :
        List (List (Key × Val))), s ≠ []) ∧
      (∀ s ∈ ([[([97], [65]), ([99], [67])], [([97], [66]), ([98], [68])]] :
          List (List (Key × Val))),
        List.Chain' (fun a b => keyLt a.1 b.1 = true) s) ∧
      (([[([97], [65]), ([99], [67])], [([97], [66]), ([98], [68])]] :
          List (List (Key × Val))).map List.length).sum < 5 ∧
      (List.Chain' (fun a b => keyLt a.1 b.1 = true)
        (mergeScan 5 (MergeIterator.create
          (([[([97], [65]), ([99], [67])], [([97], [66]), ([98], [68])]] :
            List (List (Key × Val))).map fun s => ⟨s, false⟩))) ∧
      ∀ k v, ((k, v) ∈ mergeScan 5 (MergeIterator.create
          (([[([97], [65]), ([99], [67])], [([97], [66]), ([98], [68])]] :
            List (List (Key × Val))).map fun s => ⟨s, false⟩)) ↔
        ∃ i, i < ([[([97], [65]), ([99], [67])], [([97], [66]), ([98], [68])]] :
            List (List (Key × Val))).length ∧
          (k, v) ∈ ([[([97], [65]), ([99], [67])], [([97], [66]), ([98], [68])]] :
            List (List (Key × Val))).getD i [] ∧
          ∀ j, j < ([[([97], [65]), ([99], [67])], [([97], [66]), ([98], [68])]] :
              List (List (Key × Val))).length →
            k ∈ (([[([97], [65]), ([99], [67])], [([97], [66]), ([98], [68])]] :
              List (List (Key × Val))).getD j []).map Prod.fst → i ≤ j)) :=
  ⟨by decide,
    by
      intro s hs
      simp only [List.mem_cons, List.mem_singleton] at hs
      rcases hs with rfl | rfl | h
      · exact List.Chain.cons (by decide) List.Chain.nil
      · exact List.Chain.cons (by decide) List.Chain.nil
      · simp at h,
    by decide,
    c2_merge_sorted_dedup [[([97], [65]), ([99], [67])], [([97], [66]), ([98], [68])]]
      (by decide)
      (by
        intro s hs
        simp only [List.mem_cons, List.mem_singleton] at hs
        rcases hs with rfl | rfl | h
        · exact List.Chain.cons (by decide) List.Chain.nil
        · exact List.Chain.cons (by decide) List.Chain.nil
        · simp at h)
      5 (by decide)⟩
